import Mathlib

/-!
Verification of the Data_Migration repository (MS SQL Server → PostgreSQL
migration pipeline).  The definitions below are shallow embeddings of the
functions in `migrate_schema.py` and `migrate_data.py`:

* `topological_sort_tables` (migrate_schema.py, lines 173-203) — Kahn's
  topological sort over the foreign-key dependency graph;
* `map_data_type` (lines 206-238) — type-cache / oracle resolution followed
  by length and precision suffixing;
* `map_default_value` (lines 241-276) — default-expression normalization,
  exact cache lookup, type-prefixed regex rules, oracle fallback;
* `fetch_batches` / `copy_table` / `load_checkpoint` / the `migrate` driver
  loop (migrate_data.py) — batched, checkpoint-resumable data transfer;
* `validate_constraints` (migrate_data.py, lines 88-101).

External effects are made explicit: the generative-model oracle is a
parameter of type `Except Unit String` (an `.error` value models a raised
network/API exception), database rows are lists, the regex engine used by
`re.fullmatch` is an abstract `String → String → Bool` parameter, and the
driver loops are folds producing explicit event traces.  Python integers are
modelled as `Int` (`Option Int` where a column attribute may be `NULL`), and
Python truthiness of those values is modelled explicitly.
-/

namespace DataMigration

/-- Rows flowing through the data-transfer engine; their contents are opaque
to all of the control logic, so they are identified by an abstract tag. -/
abbrev Row : Type := Nat

/-! ### fetch_batches and copy_table (migrate_data.py, lines 48-54, 104-127) -/

/-- Embedding of `fetch_batches`: `cur.fetchmany(size)` on a forward-only
cursor returns the next `size` rows (fewer at the end); the generator stops
at the first empty fetch.  `fetchmany(0)` returns no rows, so with size 0 the
loop produces no batches. -/
def fetch_batches : List Row → Nat → List (List Row)
  | _, 0 => []
  | [], _ + 1 => []
  | r :: rs, n + 1 => ((r :: rs).take (n + 1)) :: fetch_batches ((r :: rs).drop (n + 1)) (n + 1)
termination_by rows _ => rows.length
decreasing_by
  simp only [List.drop_succ_cons, List.length_drop, List.length_cons]
  omega

/-- Result of the `copy_table` batch loop: the list of multi-row insert
operations issued (one `psycopg2.extras.execute_values` call per batch) and
the running `total` row counter. -/
structure CopyResult where
  inserts : List (List Row)
  total : Nat
deriving DecidableEq

/-- Embedding of the batch loop of `copy_table`: one multi-row insert per
batch produced by `fetch_batches`, accumulating `total += len(batch)`. -/
def copy_table (rows : List Row) (batch_size : Nat) : CopyResult :=
  (fetch_batches rows batch_size).foldl
    (fun acc batch => CopyResult.mk (acc.inserts ++ [batch]) (acc.total + batch.length))
    (CopyResult.mk [] 0)

theorem fetch_batches_join (n : Nat) (rows : List Row) (B : Nat) (hB : 0 < B)
    (hn : rows.length ≤ n) : (fetch_batches rows B).flatten = rows := by
  obtain ⟨b, rfl⟩ := Nat.exists_eq_succ_of_ne_zero (Nat.pos_iff_ne_zero.mp hB)
  induction n generalizing rows with
  | zero =>
    have h0 : rows = [] := List.eq_nil_of_length_eq_zero (Nat.le_zero.mp hn)
    subst h0
    simp [fetch_batches]
  | succ n ih =>
    match rows with
    | [] => simp [fetch_batches]
    | r :: rs =>
      rw [fetch_batches]
      have hd : ((r :: rs).drop (b + 1)).length ≤ n := by
        simp only [List.drop_succ_cons, List.length_drop]
        simp only [List.length_cons] at hn
        omega
      rw [List.flatten_cons, ih _ hd, List.take_append_drop]

theorem fetch_batches_length (n : Nat) (rows : List Row) (B : Nat) (hB : 0 < B)
    (hn : rows.length ≤ n) : (fetch_batches rows B).length = (rows.length + B - 1) / B := by
  obtain ⟨b, rfl⟩ := Nat.exists_eq_succ_of_ne_zero (Nat.pos_iff_ne_zero.mp hB)
  induction n generalizing rows with
  | zero =>
    have h0 : rows = [] := List.eq_nil_of_length_eq_zero (Nat.le_zero.mp hn)
    subst h0
    simp [fetch_batches, Nat.div_eq_of_lt (Nat.lt_succ_self b)]
  | succ n ih =>
    match rows with
    | [] => simp [fetch_batches, Nat.div_eq_of_lt (Nat.lt_succ_self b)]
    | r :: rs =>
      rw [fetch_batches]
      have hd : ((r :: rs).drop (b + 1)).length ≤ n := by
        simp only [List.drop_succ_cons, List.length_drop]
        simp only [List.length_cons] at hn
        omega
      rw [List.length_cons, ih _ hd]
      simp only [List.drop_succ_cons, List.length_drop, List.length_cons]
      rw [show rs.length + 1 + (b + 1) - 1 = rs.length + (b + 1) from by omega,
        Nat.add_div_right _ (Nat.succ_pos b)]
      rcases Nat.lt_or_ge rs.length b with h | h
      · rw [show rs.length - b + (b + 1) - 1 = b from by omega,
          Nat.div_eq_of_lt (Nat.lt_succ_self b), Nat.div_eq_of_lt (by omega)]
      · rw [show rs.length - b + (b + 1) - 1 = rs.length from by omega]

theorem copy_table_inserts (rows : List Row) (B : Nat) :
    (copy_table rows B).inserts = fetch_batches rows B ∧
      (copy_table rows B).total = ((fetch_batches rows B).map List.length).sum := by
  unfold copy_table
  generalize fetch_batches rows B = bs
  suffices h : ∀ (acc : List (List Row)) (t : Nat),
      (bs.foldl (fun acc batch =>
          CopyResult.mk (acc.inserts ++ [batch]) (acc.total + batch.length))
        (CopyResult.mk acc t)).inserts = acc ++ bs ∧
      (bs.foldl (fun acc batch =>
          CopyResult.mk (acc.inserts ++ [batch]) (acc.total + batch.length))
        (CopyResult.mk acc t)).total = t + (bs.map List.length).sum by
    simpa using h [] 0
  induction bs with
  | nil => simp
  | cons b bs ih =>
    intro acc t
    simp only [List.foldl_cons, List.map_cons, List.sum_cons]
    refine ⟨((ih _ _).1).trans (by simp), ((ih _ _).2).trans (by omega)⟩

/-- Claim C9: for a table with N source rows copied without error with batch
size B > 0, the engine issues exactly ceil(N/B) insert operations (one
multi-row insert per batch), and the rows inserted are exactly the source
rows — total N, no duplication, no loss. -/
theorem c9_batched_transfer (rows : List Row) (B : Nat) (hB : 0 < B) :
    (copy_table rows B).inserts.length = (rows.length + B - 1) / B ∧
      (copy_table rows B).inserts.flatten = rows ∧
      (copy_table rows B).total = rows.length := by
  obtain ⟨h1, h2⟩ := copy_table_inserts rows B
  refine ⟨h1 ▸ fetch_batches_length rows.length rows B hB le_rfl,
    h1 ▸ fetch_batches_join rows.length rows B hB le_rfl, ?_⟩
  rw [h2]
  have hj := fetch_batches_join rows.length rows B hB le_rfl
  calc ((fetch_batches rows B).map List.length).sum
      = (fetch_batches rows B).flatten.length := (List.length_flatten _).symm
    _ = rows.length := by rw [hj]

/-- Witness for C9 at a concrete input: 5 rows with batch size 2 give
ceil(5/2) = 3 insert operations covering exactly the 5 rows. -/
theorem c9_batched_transfer_witness :
    (copy_table [1, 2, 3, 4, 5] 2).inserts.length = (5 + 2 - 1) / 2 ∧
      (copy_table [1, 2, 3, 4, 5] 2).inserts.flatten = [1, 2, 3, 4, 5] ∧
      (copy_table [1, 2, 3, 4, 5] 2).total = 5 := by
  have h := c9_batched_transfer [1, 2, 3, 4, 5] 2 (by decide)
  simpa using h

/-! ### Checkpoint handling and the migrate driver loop
(migrate_data.py, lines 57-65 and 163-183) -/

/-- Table key `f"{schema}.{table}"` used by both pipeline stages. -/
def tableKey (t : String × String) : String := t.1 ++ "." ++ t.2

/-- Whitespace stripping from both ends of a character list, the behavior of
Python's `str.strip()` with no arguments. -/
def stripChars (cs : List Char) : List Char :=
  ((cs.dropWhile Char.isWhitespace).reverse.dropWhile Char.isWhitespace).reverse

/-- Python `str.strip()` on a string. -/
def pyStrip (s : String) : String := String.mk (stripChars s.toList)

/-- Embedding of `load_checkpoint`: the `.migrated` file is split into lines,
each line is stripped, and blank lines are discarded.  (The Python code
builds a set; only membership is ever used, so a list is kept here.) -/
def load_checkpoint (ckLines : List String) : List String :=
  (ckLines.map pyStrip).filter (fun l => l ≠ "")

/-- Observable actions of the data-transfer driver: the per-table source
`SELECT`, each multi-row insert (with its batch size), the per-table
rollback, the per-table error log line, and the checkpoint append. -/
inductive Ev where
  | select (key : String)
  | insert (key : String) (batchSize : Nat)
  | rollback (key : String)
  | logError (key : String)
  | checkpoint (key : String)
deriving DecidableEq

/-- Table key an event is about. -/
def evKey : Ev → String
  | .select k => k
  | .insert k _ => k
  | .rollback k => k
  | .logError k => k
  | .checkpoint k => k

/-- Events produced for one non-skipped table by the `try/except` body of the
driver loop.  `failAfter k = none` models an exception-free copy: the source
select, one insert per batch, then the checkpoint append.  `failAfter k =
some i` models an exception raised after `i` batches were inserted: the
`except` branch rolls the transaction back and logs the error with the table
key, and no checkpoint entry is written. -/
def tableEvents (failAfter : String → Option Nat) (rowsOf : String → List Row)
    (B : Nat) (k : String) : List Ev :=
  match failAfter k with
  | none =>
      Ev.select k :: ((fetch_batches (rowsOf k) B).map (fun b => Ev.insert k b.length)
        ++ [Ev.checkpoint k])
  | some i =>
      Ev.select k :: (((fetch_batches (rowsOf k) B).take i).map (fun b => Ev.insert k b.length)
        ++ [Ev.rollback k, Ev.logError k])

/-- Embedding of the driver loop of `migrate`: load the checkpoint log once,
then for each table in order, skip it when its key is in the log, otherwise
run the copy under `try/except` (which never re-raises, so the loop always
continues with the next table). -/
def migrate_loop (ckLines : List String) (failAfter : String → Option Nat)
    (rowsOf : String → List Row) (B : Nat) (tables : List (String × String)) : List Ev :=
  (tables.map (fun t =>
    if tableKey t ∈ load_checkpoint ckLines then []
    else tableEvents failAfter rowsOf B (tableKey t))).flatten

theorem evKey_of_mem_tableEvents (failAfter : String → Option Nat)
    (rowsOf : String → List Row) (B : Nat) (k : String) (e : Ev)
    (he : e ∈ tableEvents failAfter rowsOf B k) : evKey e = k := by
  unfold tableEvents at he
  rcases h : failAfter k with _ | i <;> rw [h] at he
  · rcases List.mem_cons.mp he with rfl | he2
    · rfl
    · rcases List.mem_append.mp he2 with h3 | h3
      · obtain ⟨b, _, rfl⟩ := List.mem_map.mp h3; rfl
      · rw [List.mem_singleton] at h3; subst h3; rfl
  · rcases List.mem_cons.mp he with rfl | he2
    · rfl
    · rcases List.mem_append.mp he2 with h3 | h3
      · obtain ⟨b, _, rfl⟩ := List.mem_map.mp h3; rfl
      · rcases List.mem_cons.mp h3 with rfl | h4
        · rfl
        · rw [List.mem_singleton] at h4; subst h4; rfl

theorem mem_migrate_loop (ckLines : List String) (failAfter : String → Option Nat)
    (rowsOf : String → List Row) (B : Nat) (tables : List (String × String)) (e : Ev) :
    e ∈ migrate_loop ckLines failAfter rowsOf B tables ↔
      ∃ t ∈ tables, tableKey t ∉ load_checkpoint ckLines ∧
        e ∈ tableEvents failAfter rowsOf B (tableKey t) := by
  unfold migrate_loop
  rw [List.mem_flatten]
  constructor
  · rintro ⟨l, hl, hel⟩
    rw [List.mem_map] at hl
    obtain ⟨t, ht, rfl⟩ := hl
    by_cases hd : tableKey t ∈ load_checkpoint ckLines
    · rw [if_pos hd] at hel; cases hel
    · rw [if_neg hd] at hel; exact ⟨t, ht, hd, hel⟩
  · rintro ⟨t, ht, hd, hel⟩
    exact ⟨_, List.mem_map.mpr ⟨t, ht, rfl⟩, by rw [if_neg hd]; exact hel⟩

/-- Claim C3: a table whose copy raises gets its transaction rolled back and
its error logged with the table key, receives no checkpoint entry, and every
other pending table is still processed (its source select still happens). -/
theorem c3_per_table_error_isolation (ckLines : List String)
    (failAfter : String → Option Nat) (rowsOf : String → List Row) (B : Nat)
    (tables : List (String × String)) (t : String × String) (i : Nat)
    (ht : t ∈ tables) (hpend : tableKey t ∉ load_checkpoint ckLines)
    (hfail : failAfter (tableKey t) = some i) :
    Ev.rollback (tableKey t) ∈ migrate_loop ckLines failAfter rowsOf B tables ∧
      Ev.logError (tableKey t) ∈ migrate_loop ckLines failAfter rowsOf B tables ∧
      Ev.checkpoint (tableKey t) ∉ migrate_loop ckLines failAfter rowsOf B tables ∧
      ∀ u ∈ tables, tableKey u ∉ load_checkpoint ckLines →
        Ev.select (tableKey u) ∈ migrate_loop ckLines failAfter rowsOf B tables := by
  refine ⟨?_, ?_, ?_, ?_⟩
  · exact (mem_migrate_loop _ _ _ _ _ _).mpr
      ⟨t, ht, hpend, by simp [tableEvents, hfail]⟩
  · exact (mem_migrate_loop _ _ _ _ _ _).mpr
      ⟨t, ht, hpend, by simp [tableEvents, hfail]⟩
  · intro hmem
    obtain ⟨u, _, _, hu⟩ := (mem_migrate_loop _ _ _ _ _ _).mp hmem
    have hk : tableKey t = tableKey u := evKey_of_mem_tableEvents _ _ _ _ _ hu
    rw [← hk] at hu
    unfold tableEvents at hu
    rw [hfail] at hu
    rcases List.mem_cons.mp hu with h1 | h1
    · simp at h1
    · rcases List.mem_append.mp h1 with h2 | h2
      · obtain ⟨b, _, hb⟩ := List.mem_map.mp h2
        simp at hb
      · simp at h2
  · intro u hu hupend
    exact (mem_migrate_loop _ _ _ _ _ _).mpr
      ⟨u, hu, hupend, by rcases h : failAfter (tableKey u) with _ | j <;>
        simp [tableEvents, h]⟩

/-- Witness for C3: three tables, an empty checkpoint log, and a copy of
`s.b` that raises after one batch; rollback and error-log happen for `s.b`,
`s.b` is never checkpointed, and `s.c` is still selected. -/
theorem c3_per_table_error_isolation_witness :
    Ev.rollback "s.b" ∈ migrate_loop [] (fun k => if k = "s.b" then some 1 else none)
        (fun _ => [1, 2, 3]) 2 [("s", "a"), ("s", "b"), ("s", "c")] ∧
      Ev.logError "s.b" ∈ migrate_loop [] (fun k => if k = "s.b" then some 1 else none)
        (fun _ => [1, 2, 3]) 2 [("s", "a"), ("s", "b"), ("s", "c")] ∧
      Ev.checkpoint "s.b" ∉ migrate_loop [] (fun k => if k = "s.b" then some 1 else none)
        (fun _ => [1, 2, 3]) 2 [("s", "a"), ("s", "b"), ("s", "c")] ∧
      Ev.select "s.c" ∈ migrate_loop [] (fun k => if k = "s.b" then some 1 else none)
        (fun _ => [1, 2, 3]) 2 [("s", "a"), ("s", "b"), ("s", "c")] := by
  have h := c3_per_table_error_isolation [] (fun k => if k = "s.b" then some 1 else none)
    (fun _ => [1, 2, 3]) 2 [("s", "a"), ("s", "b"), ("s", "c")] ("s", "b") 1
    (by decide) (by decide) (by decide)
  exact ⟨h.1, h.2.1, h.2.2.1, h.2.2.2 ("s", "c") (by decide) (by decide)⟩

/-- Claim C4: a table whose key is in the checkpoint log at process start is
never selected from the source and never inserted into the target on a
re-run, while every table whose key is absent is still processed. -/
theorem c4_resumability (ckLines : List String) (failAfter : String → Option Nat)
    (rowsOf : String → List Row) (B : Nat) (tables : List (String × String))
    (t : String × String) (ht : t ∈ tables) :
    (tableKey t ∈ load_checkpoint ckLines →
        Ev.select (tableKey t) ∉ migrate_loop ckLines failAfter rowsOf B tables ∧
          ∀ n, Ev.insert (tableKey t) n ∉ migrate_loop ckLines failAfter rowsOf B tables) ∧
      (tableKey t ∉ load_checkpoint ckLines →
        Ev.select (tableKey t) ∈ migrate_loop ckLines failAfter rowsOf B tables) := by
  constructor
  · intro hdone
    constructor
    · intro hmem
      obtain ⟨u, _, hupend, hu⟩ := (mem_migrate_loop _ _ _ _ _ _).mp hmem
      have hk : tableKey t = tableKey u := evKey_of_mem_tableEvents _ _ _ _ _ hu
      rw [← hk] at hupend
      exact hupend hdone
    · intro n hmem
      obtain ⟨u, _, hupend, hu⟩ := (mem_migrate_loop _ _ _ _ _ _).mp hmem
      have hk : tableKey t = tableKey u := evKey_of_mem_tableEvents _ _ _ _ _ hu
      rw [← hk] at hupend
      exact hupend hdone
  · intro hpend
    exact (mem_migrate_loop _ _ _ _ _ _).mpr
      ⟨t, ht, hpend, by rcases h : failAfter (tableKey t) with _ | j <;>
        simp [tableEvents, h]⟩

/-- Witness for C4: with checkpoint log line `sales.orders`, a re-run never
selects from or inserts into `sales.orders` but still selects `sales.items`. -/
theorem c4_resumability_witness :
    Ev.select "sales.orders" ∉ migrate_loop ["sales.orders"] (fun _ => none)
        (fun _ => [1, 2]) 2 [("sales", "orders"), ("sales", "items")] ∧
      Ev.insert "sales.orders" 2 ∉ migrate_loop ["sales.orders"] (fun _ => none)
        (fun _ => [1, 2]) 2 [("sales", "orders"), ("sales", "items")] ∧
      Ev.select "sales.items" ∈ migrate_loop ["sales.orders"] (fun _ => none)
        (fun _ => [1, 2]) 2 [("sales", "orders"), ("sales", "items")] := by
  have h1 := c4_resumability ["sales.orders"] (fun _ => none) (fun _ => [1, 2]) 2
    [("sales", "orders"), ("sales", "items")] ("sales", "orders") (by decide)
  have h2 := c4_resumability ["sales.orders"] (fun _ => none) (fun _ => [1, 2]) 2
    [("sales", "orders"), ("sales", "items")] ("sales", "items") (by decide)
  exact ⟨(h1.1 (by decide)).1, (h1.1 (by decide)).2 2, h2.2 (by decide)⟩

/-! ### validate_constraints (migrate_data.py, lines 88-101, 178-179) -/

/-- Embedding of the `VALIDATE CONSTRAINT` loop of `validate_constraints`:
constraints (pairs of table and constraint name) are validated sequentially;
`outcome c = .error ()` models `ALTER TABLE … VALIDATE CONSTRAINT` raising.
The Python loop has no `try/except`, so the first raising statement aborts
the whole function: the result is the list of constraints actually attempted
plus `some ()` when an exception escaped. -/
def validate_constraints_run : List (String × String) →
    ((String × String) → Except Unit Unit) → List (String × String) × Option Unit
  | [], _ => ([], none)
  | c :: cs, outcome =>
      match outcome c with
      | .ok _ =>
          let r := validate_constraints_run cs outcome
          (c :: r.1, r.2)
      | .error _ => ([c], some ())

/-- Embedding of the end of `migrate` (lines 178-183): in non-strict mode
`validate_constraints` is called with no surrounding `try/except`, so an
escaping exception aborts the run (the final success log is never reached). -/
def migrate_finish (strict : Bool) (constraints : List (String × String))
    (outcome : (String × String) → Except Unit Unit) : Except Unit Unit :=
  if strict then Except.ok ()
  else
    match (validate_constraints_run constraints outcome).2 with
    | none => Except.ok ()
    | some e => Except.error e

/-- Claim C6 is contradicted by the code: with two not-yet-validated
constraints where validating the first raises, the `VALIDATE CONSTRAINT`
loop stops at the first failure (the second constraint is never validated)
and the exception escapes `validate_constraints` and `migrate`, aborting the
run; when no validation fails, all constraints are validated and the run
ends normally. -/
theorem c6_validation_failure_aborts :
    validate_constraints_run [("s.a", "fk1"), ("s.b", "fk2")]
        (fun c => if c.2 = "fk1" then Except.error () else Except.ok ()) =
      ([("s.a", "fk1")], some ()) ∧
      migrate_finish false [("s.a", "fk1"), ("s.b", "fk2")]
        (fun c => if c.2 = "fk1" then Except.error () else Except.ok ()) =
        Except.error () ∧
      validate_constraints_run [("s.a", "fk1"), ("s.b", "fk2")] (fun _ => Except.ok ()) =
        ([("s.a", "fk1"), ("s.b", "fk2")], none) := by
  refine ⟨rfl, rfl, rfl⟩

/-! ### map_data_type (migrate_schema.py, lines 206-238)

The persistent type cache (`type_mappings.json`) is an association list, the
generative-model oracle is an `Except Unit String` (`.error ()` models a
raised network/API exception — `get_mapping_from_gemini` has no exception
handling, so the raised error is whatever `generate_content` raises), and
nullable INFORMATION_SCHEMA integers are `Option Int` with Python truthiness
made explicit.  The cache-write side effect (`save_json_mapping`) does not
influence the returned type string and is not modelled. -/

deriving instance DecidableEq for Except

/-- Python `str.lower()`, written over the character list so it evaluates by
kernel reduction. -/
def pyLower (s : String) : String := String.mk (s.toList.map Char.toLower)

/-- Bool test for `needle in haystack` on character lists (Python's `in`
substring operator). -/
def hasSubChars (p : List Char) : List Char → Bool
  | [] => p.isEmpty
  | c :: t => p.isPrefixOf (c :: t) || hasSubChars p t

/-- Python's `pat in s` substring test on strings. -/
def strContains (s pat : String) : Bool := hasSubChars pat.toList s.toList

/-- Python truthiness of a nullable integer: `None` and `0` are falsy. -/
def truthyInt : Option Int → Bool
  | none => false
  | some x => x != 0

/-- The four character types special-cased by `map_data_type`. -/
def charSuffixTypes : List String := ["varchar", "nvarchar", "char", "nchar"]

/-- The two exact-numeric types special-cased by `map_data_type`. -/
def numericSuffixTypes : List String := ["decimal", "numeric"]

/-- Length/precision/scale suffixing applied by `map_data_type` after the
base type is resolved, transcribing the `if/elif` chain of lines 230-236:
character types are suffixed only when the resolved base does not already
contain `text`; a length of -1 becomes unbounded `text`; a positive length
is appended; `decimal`/`numeric` get `(precision, scale)` appended when both
values are truthy (non-`NULL` and non-zero). -/
def applySuffix (t : String) (len prec scale : Option Int) (pg : String) : String :=
  if t ∈ charSuffixTypes ∧ strContains pg "text" = false then
    if len = some (-1) then "text"
    else if 0 < len.getD 0 then pg ++ "(" ++ toString (len.getD 0) ++ ")"
    else pg
  else if t ∈ numericSuffixTypes ∧ truthyInt prec = true ∧ truthyInt scale = true then
    pg ++ "(" ++ toString (prec.getD 0) ++ ", " ++ toString (scale.getD 0) ++ ")"
  else pg

/-- Base type resolution of `map_data_type`: cache lookup on the lower-cased
source type, falling back to the oracle on a miss; an oracle error
propagates (there is no `try/except` anywhere on this path). -/
def resolveBase (typeMapping : List (String × String)) (oracle : Except Unit String)
    (t : String) : Except Unit String :=
  match List.lookup t typeMapping with
  | some pg => Except.ok pg
  | none => oracle

/-- Embedding of `map_data_type`. -/
def map_data_type (typeMapping : List (String × String)) (oracle : Except Unit String)
    (sqlserver_type : String) (char_max_length numeric_precision numeric_scale : Option Int) :
    Except Unit String :=
  Except.map (applySuffix (pyLower sqlserver_type) char_max_length numeric_precision numeric_scale)
    (resolveBase typeMapping oracle (pyLower sqlserver_type))

/-- Source column metadata fed to the translator by
`generate_postgres_schema`. -/
structure ColumnInfo where
  name : String
  dataType : String
  charMaxLength : Option Int
  numericPrecision : Option Int
  numericScale : Option Int
deriving DecidableEq

/-- The column loop of `generate_postgres_schema` (lines 282-292) restricted
to type resolution: each column's type is mapped in order and, because no
caller up to `main` catches exceptions from the oracle, an error anywhere
aborts the whole loop (and with it the schema stage). -/
def generate_column_types (typeMapping : List (String × String))
    (oracle : String → Except Unit String) (cols : List ColumnInfo) :
    Except Unit (List String) :=
  cols.mapM (fun c =>
    map_data_type typeMapping (oracle c.dataType) c.dataType
      c.charMaxLength c.numericPrecision c.numericScale)

/-! ### map_default_value (migrate_schema.py, lines 241-276)

The default-value cache (`default_mappings.json`) is an association list in
dict iteration order, the regex engine behind `re.fullmatch(pattern, value,
IGNORECASE)` is an abstract parameter `rx : String → String → Bool`, and the
oracle is again an `Except Unit String`. -/

/-- The parenthesis-stripping `while` loop of lines 246-247, written with a
fuel counter so it evaluates by kernel reduction; each iteration removes one
layer of enclosing parentheses and strips whitespace, shortening the list by
at least two, so `cs.length` fuel always suffices and the fuel case is
unreachable. -/
def parenStripLoop : Nat → List Char → List Char
  | 0, cs => cs
  | fuel + 1, cs =>
      if cs.head? = some '(' ∧ cs.getLast? = some ')' then
        parenStripLoop fuel (stripChars cs.tail.dropLast)
      else cs

/-- Strip any number of layers of enclosing parentheses (with inner
whitespace stripping), as the normalization loop of `map_default_value`. -/
def parenStripAll (cs : List Char) : List Char := parenStripLoop cs.length cs

/-- Python `pattern_key.split("::", 1)` guarded by `"::" in pattern_key`:
`none` when the key has no `::`, otherwise the part before the first `::`
and everything after it. -/
def splitTypeKey (s : String) : Option (String × String) :=
  match s.splitOn "::" with
  | [] => none
  | [_] => none
  | a :: rest => some (a, String.intercalate "::" rest)

/-- The pattern loop of lines 255-261: scan the mapping in order; a rule
fires when its key splits into a type tag equal to the lower-cased column
type and a pattern that full-matches the normalized default. -/
def findPatternRule (mapping : List (String × String)) (tLower dv : String)
    (rx : String → String → Bool) : Option String :=
  match mapping with
  | [] => none
  | (pk, repl) :: rest =>
      match splitTypeKey pk with
      | some (tp, pat) =>
          if tp = tLower ∧ rx pat dv = true then some repl
          else findPatternRule rest tLower dv rx
      | none => findPatternRule rest tLower dv rx

/-- Embedding of `map_default_value`: falsy (absent or empty) raw defaults
produce no clause; otherwise the raw expression is stripped and
parenthesis-normalized, looked up as the exact key `type::expr`, then
matched against the type-prefixed pattern rules in order, and finally sent
to the oracle, whose error propagates uncaught. -/
def map_default_value (defaultMapping : List (String × String))
    (rx : String → String → Bool) (oracle : Except Unit String)
    (default_value : Option String) (sqlserver_type : String) : Except Unit String :=
  match default_value with
  | none => Except.ok ""
  | some dv0 =>
      if dv0 = "" then Except.ok ""
      else
        let dv := String.mk (parenStripAll (stripChars dv0.toList))
        let key := (pyLower sqlserver_type) ++ "::" ++ dv
        match List.lookup key defaultMapping with
        | some v => Except.ok ("DEFAULT " ++ v)
        | none =>
            match findPatternRule defaultMapping (pyLower sqlserver_type) dv rx with
            | some r => Except.ok ("DEFAULT " ++ r)
            | none => Except.map (fun resolved => "DEFAULT " ++ resolved) oracle

/-- Modelled from the spec: the shipped contents of the default-value
mapping file `default_mappings.json` are not under src/; per the spec the
rule table covers, among others, boolean literals `0`/`1` for `bit`-typed
columns mapped to explicit `FALSE`/`TRUE`, and this boolean special-case is
keyed by type and checked first (exact keys are consulted before the
generic pattern rules in `map_default_value`). -/
def boolDefaultRules : List (String × String) := [("bit::0", "FALSE"), ("bit::1", "TRUE")]

/-- An expression wrapped in `n` layers of enclosing parentheses. -/
def wrapParens : Nat → String → String
  | 0, s => s
  | n + 1, s => "(" ++ wrapParens n s ++ ")"

/-- Character-level counterpart of `wrapParens`. -/
def wrapChars : Nat → List Char → List Char
  | 0, cs => cs
  | n + 1, cs => '(' :: (wrapChars n cs ++ [')'])

theorem wrapParens_toList (n : Nat) (s : String) :
    (wrapParens n s).toList = wrapChars n s.toList := by
  induction n with
  | zero => rfl
  | succ n ih =>
    show ("(" ++ wrapParens n s ++ ")").toList = '(' :: (wrapChars n s.toList ++ [')'])
    have h1 : ("(" ++ wrapParens n s ++ ")").toList
        = "(".toList ++ (wrapParens n s).toList ++ ")".toList := by
      simp only [String.toList, String.data_append]
    rw [h1, ih]
    simp

theorem stripChars_eq_self (cs : List Char)
    (h1 : ∀ c, cs.head? = some c → c.isWhitespace = false)
    (h2 : ∀ c, cs.getLast? = some c → c.isWhitespace = false) :
    stripChars cs = cs := by
  unfold stripChars
  have e1 : cs.dropWhile Char.isWhitespace = cs := by
    cases cs with
    | nil => rfl
    | cons a t =>
      rw [List.dropWhile_cons, if_neg (by rw [h1 a rfl]; simp)]
  rw [e1]
  have e2 : cs.reverse.dropWhile Char.isWhitespace = cs.reverse := by
    cases hr : cs.reverse with
    | nil => rfl
    | cons a t =>
      have hla : cs.getLast? = some a := by
        rw [← List.head?_reverse, hr]
        rfl
      rw [List.dropWhile_cons, if_neg (by rw [h2 a hla]; simp)]
  rw [e2, List.reverse_reverse]

theorem wrapChars_head_not_ws (n : Nat) (c : Char) (hws : c.isWhitespace = false) :
    ∀ a, (wrapChars n [c]).head? = some a → a.isWhitespace = false := by
  cases n with
  | zero =>
    intro a ha
    simp only [wrapChars, List.head?_cons, Option.some.injEq] at ha
    rw [← ha]
    exact hws
  | succ n =>
    intro a ha
    simp only [wrapChars, List.head?_cons, Option.some.injEq] at ha
    rw [← ha]
    decide

theorem wrapChars_getLast_not_ws (n : Nat) (c : Char) (hws : c.isWhitespace = false) :
    ∀ a, (wrapChars n [c]).getLast? = some a → a.isWhitespace = false := by
  cases n with
  | zero =>
    intro a ha
    simp only [wrapChars, List.getLast?_singleton, Option.some.injEq] at ha
    rw [← ha]
    exact hws
  | succ n =>
    intro a ha
    rw [show wrapChars (n + 1) [c] = ('(' :: wrapChars n [c]) ++ [')'] from rfl,
      List.getLast?_concat] at ha
    injection ha with ha2
    rw [← ha2]
    decide

theorem wrapChars_length (n : Nat) (c : Char) : (wrapChars n [c]).length = 2 * n + 1 := by
  induction n with
  | zero => rfl
  | succ n ih =>
    simp only [wrapChars, List.length_cons, List.length_append, List.length_nil, ih]
    omega

theorem parenStripLoop_wrap (c : Char) (hcpar : c ≠ '(') (hws : c.isWhitespace = false) :
    ∀ n fuel, n + 1 ≤ fuel → parenStripLoop fuel (wrapChars n [c]) = [c] := by
  intro n
  induction n with
  | zero =>
    intro fuel hf
    obtain ⟨m, rfl⟩ : ∃ m, fuel = m + 1 := ⟨fuel - 1, by omega⟩
    show parenStripLoop (m + 1) [c] = [c]
    rw [parenStripLoop, if_neg]
    intro hc
    rw [List.head?_cons, Option.some.injEq] at hc
    exact hcpar hc.1
  | succ n ih =>
    intro fuel hf
    obtain ⟨m, rfl⟩ : ∃ m, fuel = m + 1 := ⟨fuel - 1, by omega⟩
    show parenStripLoop (m + 1) ('(' :: (wrapChars n [c] ++ [')'])) = [c]
    rw [parenStripLoop, if_pos]
    · rw [List.tail_cons, List.dropLast_concat,
        stripChars_eq_self _ (wrapChars_head_not_ws n c hws)
          (wrapChars_getLast_not_ws n c hws)]
      exact ih m (by omega)
    · constructor
      · rfl
      · rw [show ('(' :: (wrapChars n [c] ++ [')'])) = ('(' :: wrapChars n [c]) ++ [')']
          from rfl]
        exact List.getLast?_concat _

theorem map_default_value_exact_hit (m : List (String × String))
    (rx : String → String → Bool) (oracle : Except Unit String)
    (dv0 t v : String) (hne : dv0 ≠ "")
    (hhit : List.lookup
        (pyLower t ++ "::" ++ String.mk (parenStripAll (stripChars dv0.toList))) m
      = some v) :
    map_default_value m rx oracle (some dv0) t = Except.ok ("DEFAULT " ++ v) := by
  simp only [map_default_value, if_neg hne, hhit]

/-- Claim C5 (against the spec-modelled contents of `default_mappings.json`):
for a column of source type `bit` with raw default `0` or `1` wrapped in any
number of enclosing parentheses, `map_default_value` returns `DEFAULT FALSE`
resp. `DEFAULT TRUE`, and the boolean special-case fires before the generic
pattern rules: the result holds for every regex engine `rx`, every oracle,
and every list of additional generic rules appended after the boolean
entries. -/
theorem c5_bit_boolean_default (n : Nat) (rest : List (String × String))
    (rx : String → String → Bool) (oracle : Except Unit String) :
    map_default_value (boolDefaultRules ++ rest) rx oracle (some (wrapParens n "0")) "bit"
        = Except.ok "DEFAULT FALSE" ∧
      map_default_value (boolDefaultRules ++ rest) rx oracle (some (wrapParens n "1")) "bit"
        = Except.ok "DEFAULT TRUE" := by
  have hne : ∀ s : String, s.toList.length = 1 → wrapParens n s ≠ "" := by
    intro s hs h
    have h2 := congrArg String.toList h
    rw [wrapParens_toList] at h2
    have h3 := congrArg List.length h2
    have hz : (("" : String).toList).length = 0 := rfl
    rw [hz] at h3
    cases n with
    | zero => rw [show wrapChars 0 s.toList = s.toList from rfl, hs] at h3; omega
    | succ k => simp [wrapChars] at h3
  have hnorm : ∀ (s : String) (c : Char), s = String.mk [c] → c ≠ '(' →
      c.isWhitespace = false →
      String.mk (parenStripAll (stripChars (wrapParens n s).toList)) = s := by
    intro s c hs hc hw
    subst hs
    rw [wrapParens_toList]
    have hsl : (String.mk [c]).toList = [c] := rfl
    rw [hsl, stripChars_eq_self _ (wrapChars_head_not_ws n c hw)
      (wrapChars_getLast_not_ws n c hw)]
    unfold parenStripAll
    rw [parenStripLoop_wrap c hc hw n _ (by rw [wrapChars_length]; omega)]
  constructor
  · have h0 := map_default_value_exact_hit (boolDefaultRules ++ rest) rx oracle
      (wrapParens n "0") "bit" "FALSE"
      (hne "0" rfl)
      (by
        rw [hnorm "0" '0' (by decide) (by decide) (by decide),
          show pyLower "bit" ++ "::" ++ "0" = "bit::0" from by decide]
        rfl)
    rw [show ("DEFAULT " ++ "FALSE" : String) = "DEFAULT FALSE" from by decide] at h0
    exact h0
  · have h1 := map_default_value_exact_hit (boolDefaultRules ++ rest) rx oracle
      (wrapParens n "1") "bit" "TRUE"
      (hne "1" rfl)
      (by
        rw [hnorm "1" '1' (by decide) (by decide) (by decide),
          show pyLower "bit" ++ "::" ++ "1" = "bit::1" from by decide]
        rfl)
    rw [show ("DEFAULT " ++ "TRUE" : String) = "DEFAULT TRUE" from by decide] at h1
    exact h1

/-- Claim C1 is contradicted by the code: `get_mapping_from_gemini` and every
caller up to `main` lack any `try/except`, so an oracle error raised on a
cache miss propagates out of `map_data_type` (and out of
`map_default_value`) and aborts the whole column loop — the schema stage
terminates abnormally instead of flagging the column and continuing.  This
theorem evaluates the code at such a failing input: type `geography` misses
the cache while the oracle raises, making the error the result of
`map_data_type`; the three-column loop then returns the propagated error (no
per-column result list, so the third column is never processed); and a
`datetime` default that misses cache and rules likewise propagates the
oracle error out of `map_default_value`. -/
theorem c1_oracle_error_aborts_schema_stage :
    map_data_type [("int", "integer")] (Except.error ()) "geography" none none none
        = Except.error () ∧
      generate_column_types [("int", "integer")]
          (fun t => if t = "int" then Except.ok "integer" else Except.error ())
          [ColumnInfo.mk "id" "int" none none none,
            ColumnInfo.mk "geo" "geography" none none none,
            ColumnInfo.mk "name" "int" none none none]
        = Except.error () ∧
      map_default_value [] (fun _ _ => false) (Except.error ())
          (some "(getdate())") "datetime"
        = Except.error () :=
  ⟨by decide, by decide, by decide⟩

/-- Counterexample to claim C7: for source type `decimal` with precision 18
and scale 0 — both present — no `(precision, scale)` suffix is appended
(Python truthiness treats a scale of 0 as absent), so the result is the bare
base type instead of `numeric(18, 0)`. -/
theorem c7_counterexample_scale_zero :
    map_data_type [("decimal", "numeric")] (Except.ok "unused") "decimal"
        none (some 18) (some 0) = Except.ok "numeric" ∧
      map_data_type [("decimal", "numeric")] (Except.ok "unused") "decimal"
          none (some 18) (some 0) ≠ Except.ok "numeric(18, 0)" :=
  ⟨by decide, by decide⟩

/-- Claim C7 as amended: after the base type is resolved, variable-length
character types map a length sentinel of -1 to unbounded `text` and append
`(length)` for positive lengths, skipping both when the base mapping already
contains `text`; exact-numeric types (`decimal`/`numeric`) append
`(precision, scale)` when both are present AND non-zero, and append nothing
when the scale is 0 (or either value is absent). -/
theorem c7_amended_suffixing (tm : List (String × String)) (oracle : Except Unit String)
    (base t : String) :
    (t ∈ ["varchar", "nvarchar"] → resolveBase tm oracle t = Except.ok base →
      (strContains base "text" = false →
        map_data_type tm oracle t (some (-1)) none none = Except.ok "text" ∧
          ∀ l : Int, 0 < l →
            map_data_type tm oracle t (some l) none none
              = Except.ok (base ++ "(" ++ toString l ++ ")")) ∧
        (strContains base "text" = true →
          ∀ len : Option Int,
            map_data_type tm oracle t len none none = Except.ok base)) ∧
      (t ∈ ["decimal", "numeric"] → resolveBase tm oracle t = Except.ok base →
        (∀ (len : Option Int) (p s : Int), p ≠ 0 → s ≠ 0 →
          map_data_type tm oracle t len (some p) (some s)
            = Except.ok (base ++ "(" ++ toString p ++ ", " ++ toString s ++ ")")) ∧
          ∀ (len : Option Int) (p : Int),
            map_data_type tm oracle t len (some p) (some 0) = Except.ok base) := by
  constructor
  · intro ht hres
    have hlow : pyLower t = t := by
      rcases List.mem_cons.mp ht with rfl | ht2
      · decide
      · rw [List.mem_singleton] at ht2; subst ht2; decide
    have hchar : t ∈ charSuffixTypes := by
      rcases List.mem_cons.mp ht with rfl | ht2
      · decide
      · rw [List.mem_singleton] at ht2; subst ht2; decide
    constructor
    · intro hbase
      constructor
      · unfold map_data_type
        rw [hlow, hres]
        simp only [Except.map]
        unfold applySuffix
        rw [if_pos ⟨hchar, hbase⟩, if_pos rfl]
      · intro l hl
        unfold map_data_type
        rw [hlow, hres]
        simp only [Except.map]
        unfold applySuffix
        rw [if_pos ⟨hchar, hbase⟩,
          if_neg (by intro hc; injection hc with hc2; omega),
          if_pos (by simpa using hl)]
        rfl
    · intro hbase len
      unfold map_data_type
      rw [hlow, hres]
      simp only [Except.map]
      unfold applySuffix
      rw [if_neg (by intro hc; rw [hbase] at hc; exact absurd hc.2 (by decide)),
        if_neg (by
          intro hc
          rcases List.mem_cons.mp ht with rfl | ht2
          · exact absurd hc.1 (by decide)
          · rw [List.mem_singleton] at ht2; subst ht2; exact absurd hc.1 (by decide))]
  · intro ht hres
    have hlow : pyLower t = t := by
      rcases List.mem_cons.mp ht with rfl | ht2
      · decide
      · rw [List.mem_singleton] at ht2; subst ht2; decide
    have hnotchar : t ∉ charSuffixTypes := by
      rcases List.mem_cons.mp ht with rfl | ht2
      · decide
      · rw [List.mem_singleton] at ht2; subst ht2; decide
    have hnum : t ∈ numericSuffixTypes := by
      rcases List.mem_cons.mp ht with rfl | ht2
      · decide
      · rw [List.mem_singleton] at ht2; subst ht2; decide
    constructor
    · intro len p s hp hs
      unfold map_data_type
      rw [hlow, hres]
      simp only [Except.map]
      unfold applySuffix
      rw [if_neg (by intro hc; exact hnotchar hc.1),
        if_pos ⟨hnum, by simp [truthyInt, hp], by simp [truthyInt, hs]⟩]
      rfl
    · intro len p
      unfold map_data_type
      rw [hlow, hres]
      simp only [Except.map]
      unfold applySuffix
      rw [if_neg (by intro hc; exact hnotchar hc.1),
        if_neg (by intro hc; exact absurd hc.2.2 (by decide))]

/-- Witness for the amended C7 at concrete inputs: `varchar(max)` becomes
`text`, `varchar` of length 40 becomes `varchar(40)`, and `decimal(18, 2)`
becomes `numeric(18, 2)`. -/
theorem c7_amended_suffixing_witness :
    map_data_type [("varchar", "character varying")] (Except.ok "x") "varchar"
        (some (-1)) none none = Except.ok "text" ∧
      map_data_type [("varchar", "character varying")] (Except.ok "x") "varchar"
          (some 40) none none = Except.ok ("character varying" ++ "(" ++ toString (40 : Int) ++ ")") ∧
      map_data_type [("decimal", "numeric")] (Except.ok "x") "decimal"
          none (some 18) (some 2)
        = Except.ok ("numeric" ++ "(" ++ toString (18 : Int) ++ ", " ++ toString (2 : Int) ++ ")") := by
  have h1 := (c7_amended_suffixing [("varchar", "character varying")] (Except.ok "x")
    "character varying" "varchar").1 (by decide) (by decide)
  have h2 := (c7_amended_suffixing [("decimal", "numeric")] (Except.ok "x")
    "numeric" "decimal").2 (by decide) (by decide)
  exact ⟨(h1.1 (by decide)).1, (h1.1 (by decide)).2 40 (by decide),
    h2.1 none 18 2 (by decide) (by decide)⟩

/-! ### topological_sort_tables (migrate_schema.py, lines 173-203)

Tables are `(schema, table)` pairs; the foreign-key map sends a table key to
the list of its foreign-key tuples (`foreign_keys_map`; a key absent from
the Python dict is modelled by the empty list).  The `defaultdict` adjacency
map and the `in_degree` dict are derived from the flat edge list `buildEdges`
built in the same nested iteration order as the Python loop; the dict's
key set in insertion order is `dedupKeys` of the table keys.  The `while
queue` loop is written with fuel `tables.length`: every node is enqueued at
most once (a node enters the queue only when its in-degree first reaches 0,
and in-degrees only decrease), so at most `tables.length` iterations can
ever run and the fuel case is unreachable. -/

/-- A foreign-key tuple as produced by `get_sqlserver_schema`:
`(constraint_name, fk_column, ref_schema, ref_table, ref_column)`. -/
structure FK where
  constraintName : String
  fkColumn : String
  refSchema : String
  refTable : String
  refColumn : String
deriving DecidableEq

/-- The referenced table's key `f"{fk[2]}.{fk[3]}"`. -/
def refKey (fk : FK) : String := fk.refSchema ++ "." ++ fk.refTable

/-- Keys of all input tables, in input order (with duplicates if any). -/
def keysOf (tables : List (String × String)) : List String := tables.map tableKey

/-- First-occurrence deduplication: the key sequence of a Python dict built
by inserting the listed keys in order. -/
def dedupKeys : List String → List String
  | [] => []
  | k :: ks => k :: (dedupKeys ks).filter (fun x => x ≠ k)

/-- The dependency edges, in the construction order of the Python loop: for
each table `t` (outer loop) and each of its foreign keys (inner loop), if
the referenced key is in scope, the edge `(referenced key, t's key)` is
added (`graph[ref].append(key)` together with `in_degree[key] += 1`). -/
def buildEdges (tables : List (String × String)) (fkmap : String → List FK) :
    List (String × String) :=
  (tables.map (fun t =>
    ((fkmap (tableKey t)).filter (fun fk => decide (refKey fk ∈ keysOf tables))).map
      (fun fk => (refKey fk, tableKey t)))).flatten

/-- Adjacency list `graph[a]` derived from the edge list. -/
def adjOf (E : List (String × String)) (a : String) : List String :=
  (E.filter (fun e => e.1 == a)).map (fun e => e.2)

/-- Initial in-degree `in_degree[k]` derived from the edge list (an `Int`,
since the loop later decrements with Python integer semantics). -/
def inDeg (E : List (String × String)) (k : String) : Int :=
  ((E.filter (fun e => e.2 == k)).length : Int)

/-- Inner `for neighbor in graph[current]` loop: decrement each neighbor's
degree and enqueue it exactly when the decremented degree is 0. -/
def processNbrs : List String → (String → Int) → List String → ((String → Int) × List String)
  | [], deg, q => (deg, q)
  | nb :: ns, deg, q =>
      let deg2 := fun x => if x = nb then deg x - 1 else deg x
      let q2 := if deg2 nb = 0 then q ++ [nb] else q
      processNbrs ns deg2 q2

/-- The `while queue` loop of Kahn's algorithm (fueled; see section
comment). -/
def kahnLoop (E : List (String × String)) :
    Nat → (String → Int) → List String → List String → List String
  | 0, _, _, out => out
  | _ + 1, _, [], out => out
  | fuel + 1, deg, cur :: rest, out =>
      let pr := processNbrs (adjOf E cur) deg rest
      kahnLoop E fuel pr.1 pr.2 (out ++ [cur])

/-- Python `str.split('.')` on a character list. -/
def splitOnDot : List Char → List (List Char)
  | [] => [[]]
  | c :: rest =>
      if c = '.' then [] :: splitOnDot rest
      else (c :: (splitOnDot rest).headD []) :: (splitOnDot rest).tail

/-- Recover the `(schema, table)` pair from a key as the Python return
statement does: `(t.split('.')[0], t.split('.')[1])` — only the first two
`'.'`-separated segments survive. -/
def keyToPair (s : String) : String × String :=
  let parts := (splitOnDot s.toList).map (fun cs => String.mk cs)
  (parts.getD 0 "", parts.getD 1 "")

/-- The value of `sorted_tables` right after the `while queue` loop: Kahn's
algorithm run from the zero-in-degree seed queue (in dict order). -/
def kahnResult (tables : List (String × String)) (fkmap : String → List FK) : List String :=
  kahnLoop (buildEdges tables fkmap) tables.length (inDeg (buildEdges tables fkmap))
    ((dedupKeys (keysOf tables)).filter (fun k => inDeg (buildEdges tables fkmap) k == 0)) []

/-- The value of `sorted_tables` after the cycle fallback of lines 198-201:
when the loop output is shorter than the input, the keys not yet emitted are
appended in dict order. -/
def finalKeys (tables : List (String × String)) (fkmap : String → List FK) : List String :=
  if (kahnResult tables fkmap).length ≠ tables.length then
    kahnResult tables fkmap ++
      (dedupKeys (keysOf tables)).filter (fun k => decide (k ∉ kahnResult tables fkmap))
  else kahnResult tables fkmap

/-- Embedding of `topological_sort_tables`. -/
def topological_sort_tables (tables : List (String × String))
    (fkmap : String → List FK) : List (String × String) :=
  (finalKeys tables fkmap).map keyToPair

/-- The in-scope reference graph has no cycle: no table key reaches itself
through a nonempty chain of dependency edges. -/
def Acyclic (E : List (String × String)) : Prop :=
  ∀ k, ¬ Relation.TransGen (fun a b => (a, b) ∈ E) k k

/-! Supporting lemmas for the dependency-resolver proofs. -/

theorem mem_dedupKeys (l : List String) (a : String) : a ∈ dedupKeys l ↔ a ∈ l := by
  induction l with
  | nil => rfl
  | cons k ks ih =>
    simp only [dedupKeys, List.mem_cons, List.mem_filter, ih, decide_eq_true_eq]
    constructor
    · rintro (rfl | ⟨h1, _⟩)
      · exact Or.inl rfl
      · exact Or.inr h1
    · rintro (rfl | h1)
      · exact Or.inl rfl
      · by_cases hk : a = k
        · exact Or.inl hk
        · exact Or.inr ⟨h1, hk⟩

theorem nodup_dedupKeys (l : List String) : (dedupKeys l).Nodup := by
  induction l with
  | nil => exact List.nodup_nil
  | cons k ks ih =>
    refine List.nodup_cons.mpr ⟨?_, ih.filter _⟩
    intro hk
    exact absurd rfl (of_decide_eq_true (List.mem_filter.mp hk).2)

theorem length_dedupKeys_le (l : List String) : (dedupKeys l).length ≤ l.length := by
  induction l with
  | nil => exact le_rfl
  | cons k ks ih =>
    simp only [dedupKeys, List.length_cons]
    have := List.length_filter_le (fun x => decide (x ≠ k)) (dedupKeys ks)
    omega

theorem mem_buildEdges (tables : List (String × String)) (fkmap : String → List FK)
    (e : String × String) :
    e ∈ buildEdges tables fkmap ↔
      ∃ t ∈ tables, ∃ fk ∈ fkmap (tableKey t),
        refKey fk ∈ keysOf tables ∧ e = (refKey fk, tableKey t) := by
  unfold buildEdges
  rw [List.mem_flatten]
  constructor
  · rintro ⟨l, hl, hel⟩
    rw [List.mem_map] at hl
    obtain ⟨t, ht, rfl⟩ := hl
    rw [List.mem_map] at hel
    obtain ⟨fk, hfk, rfl⟩ := hel
    rw [List.mem_filter] at hfk
    exact ⟨t, ht, fk, hfk.1, of_decide_eq_true hfk.2, rfl⟩
  · rintro ⟨t, ht, fk, hfk, hin, rfl⟩
    refine ⟨_, List.mem_map.mpr ⟨t, ht, rfl⟩, ?_⟩
    rw [List.mem_map]
    exact ⟨fk, List.mem_filter.mpr ⟨hfk, decide_eq_true hin⟩, rfl⟩

theorem buildEdges_mem_keys (tables : List (String × String)) (fkmap : String → List FK)
    (e : String × String) (he : e ∈ buildEdges tables fkmap) :
    e.1 ∈ keysOf tables ∧ e.2 ∈ keysOf tables := by
  obtain ⟨t, ht, fk, _, hin, rfl⟩ := (mem_buildEdges tables fkmap e).mp he
  exact ⟨hin, List.mem_map.mpr ⟨t, ht, rfl⟩⟩

/-- Number of edges from `a` to `b` (with multiplicity). -/
def edgeCnt (E : List (String × String)) (a b : String) : Nat :=
  E.countP (fun e => e.1 == a && e.2 == b)

/-- Number of edges into `x` whose source has not been popped yet: the
value `in_degree[x]` holds at a loop state where `out` is the list of
popped-and-processed nodes. -/
def remDeg (E : List (String × String)) (out : List String) (x : String) : Nat :=
  E.countP (fun e => e.2 == x && decide (e.1 ∉ out))

theorem inDeg_eq_remDeg_nil (E : List (String × String)) (x : String) :
    inDeg E x = (remDeg E [] x : Int) := by
  have hf : E.filter (fun e => e.2 == x && decide (e.1 ∉ ([] : List String)))
      = E.filter (fun e => e.2 == x) := by
    apply List.filter_congr
    intro e _
    simp
  unfold inDeg remDeg
  rw [List.countP_eq_length_filter, hf]

theorem inDeg_nonneg (E : List (String × String)) (x : String) : 0 ≤ inDeg E x := by
  unfold inDeg
  positivity

theorem inDeg_pos_of_mem (E : List (String × String)) (e : String × String)
    (he : e ∈ E) : 0 < inDeg E e.2 := by
  unfold inDeg
  have : e ∈ E.filter (fun x => x.2 == e.2) := List.mem_filter.mpr ⟨he, by simp⟩
  have hpos := List.length_pos.mpr (List.ne_nil_of_mem this)
  exact_mod_cast hpos

theorem mem_adjOf (E : List (String × String)) (a b : String) :
    b ∈ adjOf E a ↔ (a, b) ∈ E := by
  unfold adjOf
  rw [List.mem_map]
  constructor
  · rintro ⟨e, he, rfl⟩
    rw [List.mem_filter] at he
    have h1 : e.1 = a := by simpa using he.2
    have : e = (a, e.2) := Prod.ext h1 rfl
    rw [← this]
    exact he.1
  · intro h
    exact ⟨(a, b), List.mem_filter.mpr ⟨h, by simp⟩, rfl⟩

theorem count_adjOf (E : List (String × String)) (a b : String) :
    (adjOf E a).count b = edgeCnt E a b := by
  unfold adjOf edgeCnt
  rw [List.count_eq_countP, List.countP_map, List.countP_filter]
  apply List.countP_congr
  intro e _
  simp [Function.comp, Bool.and_comm]

theorem countP_split (l : List (String × String)) (p q r : String × String → Bool)
    (h : ∀ x ∈ l, (p x = (q x || r x)) ∧ ¬(q x = true ∧ r x = true)) :
    l.countP p = l.countP q + l.countP r := by
  induction l with
  | nil => simp
  | cons a t ih =>
    have ha := h a (List.mem_cons_self a t)
    have ht := fun x hx => h x (List.mem_cons_of_mem a hx)
    rw [List.countP_cons, List.countP_cons, List.countP_cons, ih ht]
    by_cases hq : q a = true <;> by_cases hr : r a = true
    · exact absurd ⟨hq, hr⟩ ha.2
    · rw [Bool.not_eq_true] at hr
      have hp : p a = true := by rw [ha.1, hq, hr]; rfl
      simp [hp, hq, hr] <;> omega
    · rw [Bool.not_eq_true] at hq
      have hp : p a = true := by rw [ha.1, hq, hr]; rfl
      simp [hp, hq, hr] <;> omega
    · rw [Bool.not_eq_true] at hq hr
      have hp : p a = false := by rw [ha.1, hq, hr]; rfl
      simp [hp, hq, hr] <;> omega

theorem remDeg_append (E : List (String × String)) (out : List String) (cur : String)
    (hcur : cur ∉ out) (x : String) :
    remDeg E out x = remDeg E (out ++ [cur]) x + edgeCnt E cur x := by
  unfold remDeg edgeCnt
  apply countP_split
  intro e _
  by_cases h2 : e.2 = x <;> by_cases h1 : e.1 = cur <;> by_cases ho : e.1 ∈ out <;>
    simp_all

theorem edgeCnt_le_remDeg (E : List (String × String)) (out : List String) (cur : String)
    (hcur : cur ∉ out) (x : String) :
    edgeCnt E cur x ≤ remDeg E out x := by
  unfold remDeg edgeCnt
  apply List.countP_mono_left
  intro e _ he
  simp only [Bool.and_eq_true, beq_iff_eq] at he
  simp [he.1, he.2, hcur]

theorem remDeg_eq_zero_iff (E : List (String × String)) (out : List String) (x : String) :
    remDeg E out x = 0 ↔ ∀ e ∈ E, e.2 = x → e.1 ∈ out := by
  unfold remDeg
  rw [List.countP_eq_zero]
  constructor
  · intro h e he h2
    by_contra ho
    exact h e he (by simp [h2, ho])
  · intro h e he hp
    simp only [Bool.and_eq_true, beq_iff_eq, decide_eq_true_eq] at hp
    exact hp.2 (h e he hp.1)

theorem edgeCnt_eq_zero_iff (E : List (String × String)) (a b : String) :
    edgeCnt E a b = 0 ↔ (a, b) ∉ E := by
  unfold edgeCnt
  rw [List.countP_eq_zero]
  constructor
  · intro h hab
    exact h (a, b) hab (by simp)
  · intro h e he hp
    simp only [Bool.and_eq_true, beq_iff_eq] at hp
    exact h (by rw [show (a, b) = e from (Prod.ext hp.1 hp.2).symm]; exact he)

theorem processNbrs_deg (ns : List String) (deg : String → Int) (q : List String)
    (x : String) : (processNbrs ns deg q).1 x = deg x - (ns.count x : Int) := by
  induction ns generalizing deg q with
  | nil => simp [processNbrs]
  | cons nb ns ih =>
    rw [processNbrs, ih]
    by_cases hx : x = nb
    · subst hx
      simp only [if_pos rfl, List.count_cons_self]
      push_cast
      omega
    · simp only [if_neg hx, List.count_cons]
      have hb : (nb == x) = false := by simpa using Ne.symm hx
      simp [hb] <;> omega

theorem processNbrs_queue (ns : List String) (deg : String → Int) (q : List String) :
    ∃ extra, (processNbrs ns deg q).2 = q ++ extra ∧ extra.Nodup ∧
      (∀ x, x ∈ extra ↔ 1 ≤ deg x ∧ deg x ≤ (ns.count x : Int)) ∧
      ∀ x ∈ extra, x ∈ ns := by
  induction ns generalizing deg q with
  | nil =>
    refine ⟨[], by simp [processNbrs], List.nodup_nil, ?_, by simp⟩
    intro x
    simp only [List.not_mem_nil, List.count_nil, Nat.cast_zero, false_iff, not_and, not_le]
    intro h1
    omega
  | cons nb ns ih =>
    rw [processNbrs]
    obtain ⟨extra2, he2, hn2, hiff2, hsub2⟩ :=
      ih (fun x => if x = nb then deg x - 1 else deg x)
        (if (if nb = nb then deg nb - 1 else deg nb) = 0 then q ++ [nb] else q)
    by_cases hz : deg nb - 1 = 0
    · refine ⟨nb :: extra2, ?_, ?_, ?_, ?_⟩
      · rw [he2]
        simp [hz]
      · refine List.nodup_cons.mpr ⟨?_, hn2⟩
        intro hmem
        have := (hiff2 nb).mp hmem
        simp [hz] at this
      · intro x
        by_cases hx : x = nb
        · subst hx
          simp only [List.mem_cons, true_or, true_iff, List.count_cons_self]
          constructor
          · omega
          · push_cast
            omega
        · have hb : (nb == x) = false := by simpa using Ne.symm hx
          simp only [List.mem_cons, hx, false_or, hiff2 x, if_neg hx, List.count_cons, hb,
            if_false, Bool.false_eq_true, Nat.add_zero]
      · intro x hx
        rcases List.mem_cons.mp hx with rfl | hx2
        · exact List.mem_cons_self _ _
        · exact List.mem_cons_of_mem _ (hsub2 x hx2)
    · refine ⟨extra2, ?_, hn2, ?_, ?_⟩
      · rw [he2]
        simp [hz]
      · intro x
        by_cases hx : x = nb
        · subst hx
          rw [hiff2 x, if_pos rfl, List.count_cons_self]
          push_cast
          omega
        · have hb : (nb == x) = false := by simpa using Ne.symm hx
          rw [hiff2 x, if_neg hx, List.count_cons]
          simp [hb]
      · intro x hx
        exact List.mem_cons_of_mem _ (hsub2 x hx)

/-- Conclusions of the Kahn loop at a terminal state (empty queue): the
accumulated output is duplicate-free, stays within the key set, respects
every edge whose target it contains, and every key missing from it still has
an unprocessed incoming edge. -/
theorem kahn_out_spec (E : List (String × String)) (K out : List String)
    (deg : String → Int)
    (h1 : out.Nodup) (h4 : ∀ x ∈ out, x ∈ K)
    (h7 : ∀ x, deg x = (remDeg E out x : Int))
    (h8 : ∀ k ∈ K, k ∈ out ↔ deg k = 0)
    (h9 : ∀ e ∈ E, e.2 ∈ out → List.Sublist [e.1, e.2] out) :
    out.Nodup ∧ (∀ x ∈ out, x ∈ K) ∧
      (∀ e ∈ E, e.2 ∈ out → List.Sublist [e.1, e.2] out) ∧
      (∀ k ∈ K, k ∉ out → ∃ e ∈ E, e.2 = k ∧ e.1 ∉ out) := by
  refine ⟨h1, h4, h9, ?_⟩
  intro k hk hko
  have hdk : deg k ≠ 0 := fun h0 => hko ((h8 k hk).mpr h0)
  rw [h7 k] at hdk
  have hrd : remDeg E out k ≠ 0 := by exact_mod_cast hdk
  rw [Ne, remDeg_eq_zero_iff] at hrd
  push_neg at hrd
  obtain ⟨e, he, h2, h1'⟩ := hrd
  exact ⟨e, he, h2, h1'⟩

/-- Invariant-carrying specification of the fueled Kahn loop. -/
theorem kahnLoop_spec (E : List (String × String)) (K : List String)
    (hK : K.Nodup) (hE : ∀ e ∈ E, e.1 ∈ K ∧ e.2 ∈ K) :
    ∀ (fuel : Nat) (deg : String → Int) (queue out : List String),
      out.Nodup →
      queue.Nodup →
      (∀ x ∈ queue, x ∉ out) →
      (∀ x ∈ out, x ∈ K) →
      (∀ x ∈ queue, x ∈ K) →
      K.length ≤ out.length + fuel →
      (∀ x, deg x = (remDeg E out x : Int)) →
      (∀ k ∈ K, (k ∈ out ∨ k ∈ queue) ↔ deg k = 0) →
      (∀ e ∈ E, (e.2 ∈ queue → e.1 ∈ out) ∧
        (e.2 ∈ out → List.Sublist [e.1, e.2] out)) →
      (kahnLoop E fuel deg queue out).Nodup ∧
        (∀ x ∈ kahnLoop E fuel deg queue out, x ∈ K) ∧
        (∀ e ∈ E, e.2 ∈ kahnLoop E fuel deg queue out →
          List.Sublist [e.1, e.2] (kahnLoop E fuel deg queue out)) ∧
        (∀ k ∈ K, k ∉ kahnLoop E fuel deg queue out →
          ∃ e ∈ E, e.2 = k ∧ e.1 ∉ kahnLoop E fuel deg queue out) ∧
        ∀ x ∈ out, x ∈ kahnLoop E fuel deg queue out := by
  intro fuel
  induction fuel with
  | zero =>
    intro deg queue out h1 h2 h3 h4 h5 h6 h7 h8 h9
    rcases queue with _ | ⟨cur, rest⟩
    · have hout : kahnLoop E 0 deg [] out = out := rfl
      rw [hout]
      have h8' : ∀ k ∈ K, k ∈ out ↔ deg k = 0 := by
        intro k hk
        constructor
        · intro hko
          exact (h8 k hk).mp (Or.inl hko)
        · intro h0
          rcases (h8 k hk).mpr h0 with hko | hkq
          · exact hko
          · exact absurd hkq (List.not_mem_nil k)
      obtain ⟨a, b, c, d⟩ := kahn_out_spec E K out deg h1 h4 h7 h8'
        (fun e he => (h9 e he).2)
      exact ⟨a, b, c, d, fun x hx => hx⟩
    · exfalso
      have hle : K.length ≤ out.length := by simpa using h6
      have hsub : out.toFinset ⊆ K.toFinset := by
        intro a ha
        exact List.mem_toFinset.mpr (h4 a (List.mem_toFinset.mp ha))
      have hcard : K.toFinset.card ≤ out.toFinset.card := by
        rw [List.toFinset_card_of_nodup h1, List.toFinset_card_of_nodup hK]
        exact hle
      have hfeq : out.toFinset = K.toFinset := Finset.eq_of_subset_of_card_le hsub hcard
      have hcur_out : cur ∈ out := by
        have : cur ∈ K.toFinset := List.mem_toFinset.mpr (h5 cur (List.mem_cons_self _ _))
        rw [← hfeq] at this
        exact List.mem_toFinset.mp this
      exact h3 cur (List.mem_cons_self _ _) hcur_out
  | succ fuel ih =>
    intro deg queue out h1 h2 h3 h4 h5 h6 h7 h8 h9
    rcases queue with _ | ⟨cur, rest⟩
    · have hout : kahnLoop E (fuel + 1) deg [] out = out := rfl
      rw [hout]
      have h8' : ∀ k ∈ K, k ∈ out ↔ deg k = 0 := by
        intro k hk
        constructor
        · intro hko
          exact (h8 k hk).mp (Or.inl hko)
        · intro h0
          rcases (h8 k hk).mpr h0 with hko | hkq
          · exact hko
          · exact absurd hkq (List.not_mem_nil k)
      obtain ⟨a, b, c, d⟩ := kahn_out_spec E K out deg h1 h4 h7 h8'
        (fun e he => (h9 e he).2)
      exact ⟨a, b, c, d, fun x hx => hx⟩
    · have hstep : kahnLoop E (fuel + 1) deg (cur :: rest) out =
        kahnLoop E fuel (processNbrs (adjOf E cur) deg rest).1
          (processNbrs (adjOf E cur) deg rest).2 (out ++ [cur]) := rfl
      rw [hstep]
      have hcurK : cur ∈ K := h5 cur (List.mem_cons_self _ _)
      have hcur_not_out : cur ∉ out := h3 cur (List.mem_cons_self _ _)
      have hcur_not_rest : cur ∉ rest := (List.nodup_cons.mp h2).1
      have hrest_nd : rest.Nodup := (List.nodup_cons.mp h2).2
      have hdeg_cur : deg cur = 0 := (h8 cur hcurK).mp (Or.inr (List.mem_cons_self _ _))
      obtain ⟨extra, hq2, hext_nd, hext_iff, hext_sub⟩ :=
        processNbrs_queue (adjOf E cur) deg rest
      -- facts about members of extra
      have hext_edge : ∀ x ∈ extra, (cur, x) ∈ E := fun x hx =>
        (mem_adjOf E cur x).mp (hext_sub x hx)
      have hextK : ∀ x ∈ extra, x ∈ K := fun x hx => (hE _ (hext_edge x hx)).2
      have hext_fresh : ∀ x ∈ extra, x ∉ out ∧ x ∉ cur :: rest := by
        intro x hx
        have hdx := (hext_iff x).mp hx
        have hne : deg x ≠ 0 := by omega
        have := h8 x (hextK x hx)
        constructor
        · intro hxo
          exact hne (this.mp (Or.inl hxo))
        · intro hxq
          exact hne (this.mp (Or.inr hxq))
      -- the degree function after processing
      have hdeg2 : ∀ x, (processNbrs (adjOf E cur) deg rest).1 x
          = deg x - ((adjOf E cur).count x : Int) := fun x =>
        processNbrs_deg (adjOf E cur) deg rest x
      have h7' : ∀ x, (processNbrs (adjOf E cur) deg rest).1 x
          = (remDeg E (out ++ [cur]) x : Int) := by
        intro x
        rw [hdeg2 x, h7 x, count_adjOf, remDeg_append E out cur hcur_not_out x]
        push_cast
        ring
      -- no processed edge can point at an already-settled node
      have hcnt_zero : ∀ k, k ∈ out ∨ k ∈ cur :: rest → edgeCnt E cur k = 0 := by
        intro k hk
        by_contra hcz
        have hmem : (cur, k) ∈ E := not_not.mp (fun hn =>
          hcz ((edgeCnt_eq_zero_iff E cur k).mpr hn))
        rcases hk with hko | hkq
        · have := (h9 (cur, k) hmem).2 hko
          exact hcur_not_out (this.subset (List.mem_cons_self _ _))
        · exact hcur_not_out ((h9 (cur, k) hmem).1 hkq)
      -- new invariants
      have h1' : (out ++ [cur]).Nodup := by
        refine h1.append (List.nodup_singleton cur) ?_
        intro a ha hb
        rw [List.mem_singleton] at hb
        subst hb
        exact hcur_not_out ha
      have h2' : (processNbrs (adjOf E cur) deg rest).2.Nodup := by
        rw [hq2]
        refine hrest_nd.append hext_nd ?_
        intro a ha hb
        exact (hext_fresh a hb).2 (List.mem_cons_of_mem _ ha)
      have h3' : ∀ x ∈ (processNbrs (adjOf E cur) deg rest).2, x ∉ out ++ [cur] := by
        intro x hx
        rw [hq2, List.mem_append] at hx
        rw [List.mem_append, List.mem_singleton]
        rcases hx with hx | hx
        · rintro (hxo | rfl)
          · exact h3 x (List.mem_cons_of_mem _ hx) hxo
          · exact hcur_not_rest hx
        · rintro (hxo | rfl)
          · exact (hext_fresh x hx).1 hxo
          · exact (hext_fresh x hx).2 (List.mem_cons_self _ _)
      have h4' : ∀ x ∈ out ++ [cur], x ∈ K := by
        intro x hx
        rw [List.mem_append, List.mem_singleton] at hx
        rcases hx with hx | rfl
        · exact h4 x hx
        · exact hcurK
      have h5' : ∀ x ∈ (processNbrs (adjOf E cur) deg rest).2, x ∈ K := by
        intro x hx
        rw [hq2, List.mem_append] at hx
        rcases hx with hx | hx
        · exact h5 x (List.mem_cons_of_mem _ hx)
        · exact hextK x hx
      have h6' : K.length ≤ (out ++ [cur]).length + fuel := by
        rw [List.length_append, List.length_singleton]
        omega
      have h8' : ∀ k ∈ K, (k ∈ out ++ [cur] ∨ k ∈ (processNbrs (adjOf E cur) deg rest).2)
          ↔ (processNbrs (adjOf E cur) deg rest).1 k = 0 := by
        intro k hk
        rw [hq2, hdeg2 k, count_adjOf]
        constructor
        · intro hmem
          rw [List.mem_append, List.mem_singleton, List.mem_append] at hmem
          rcases hmem with (hko | rfl) | hkr | hke
          · rw [(h8 k hk).mp (Or.inl hko), hcnt_zero k (Or.inl hko)]
            ring
          · rw [hdeg_cur, hcnt_zero k (Or.inr (List.mem_cons_self _ _))]
            ring
          · rw [(h8 k hk).mp (Or.inr (List.mem_cons_of_mem _ hkr)),
              hcnt_zero k (Or.inr (List.mem_cons_of_mem _ hkr))]
            ring
          · have hdx := (hext_iff k).mp hke
            have hle : edgeCnt E cur k ≤ remDeg E out k :=
              edgeCnt_le_remDeg E out cur hcur_not_out k
            have hdk := h7 k
            rw [count_adjOf] at hdx
            omega
        · intro hz
          by_contra hno
          push_neg at hno
          obtain ⟨hno1, hno2⟩ := hno
          rw [List.mem_append, List.mem_singleton] at hno1
          push_neg at hno1
          rw [List.mem_append] at hno2
          push_neg at hno2
          have hkq : k ∉ cur :: rest := by
            rw [List.mem_cons]
            rintro (rfl | hkr)
            · exact hno1.2 rfl
            · exact hno2.1 hkr
          have hdk : deg k ≠ 0 := by
            intro h0
            rcases (h8 k hk).mpr h0 with hko | hkq2
            · exact hno1.1 hko
            · exact hkq hkq2
          have hpos : 0 ≤ deg k := by
            rw [h7 k]
            positivity
          have hke : k ∉ extra := hno2.2
          rw [hext_iff k, count_adjOf] at hke
          push_neg at hke
          have := hke (by omega)
          omega
      have h9' : ∀ e ∈ E, (e.2 ∈ (processNbrs (adjOf E cur) deg rest).2 → e.1 ∈ out ++ [cur]) ∧
          (e.2 ∈ out ++ [cur] → List.Sublist [e.1, e.2] (out ++ [cur])) := by
        intro e he
        constructor
        · intro hq
          rw [hq2, List.mem_append] at hq
          rcases hq with hq | hq
          · exact List.mem_append.mpr (Or.inl ((h9 e he).1 (List.mem_cons_of_mem _ hq)))
          · have hz : (processNbrs (adjOf E cur) deg rest).1 e.2 = 0 := by
              have hdx := (hext_iff e.2).mp hq
              have hle : edgeCnt E cur e.2 ≤ remDeg E out e.2 :=
                edgeCnt_le_remDeg E out cur hcur_not_out e.2
              have hdk := h7 e.2
              rw [hdeg2, count_adjOf]
              rw [count_adjOf] at hdx
              omega
            rw [h7' e.2] at hz
            have hz2 : remDeg E (out ++ [cur]) e.2 = 0 := by exact_mod_cast hz
            rw [remDeg_eq_zero_iff] at hz2
            exact hz2 e he rfl
        · intro ho
          rw [List.mem_append, List.mem_singleton] at ho
          rcases ho with ho | ho
          · exact ((h9 e he).2 ho).trans (List.sublist_append_left _ _)
          · have he1 : e.1 ∈ out := (h9 e he).1 (by rw [ho]; exact List.mem_cons_self _ _)
            have hsub1 : List.Sublist [e.1] out := List.singleton_sublist.mpr he1
            have hsub2 : List.Sublist [e.2] [cur] := by
              rw [ho]
            exact hsub1.append hsub2
      obtain ⟨a, b, c, d, eo⟩ := ih (processNbrs (adjOf E cur) deg rest).1
        (processNbrs (adjOf E cur) deg rest).2 (out ++ [cur])
        h1' h2' h3' h4' h5' h6' h7' h8' h9'
      refine ⟨a, b, c, d, ?_⟩
      intro x hx
      exact eo x (List.mem_append.mpr (Or.inl hx))

/-- The Kahn-loop output of `topological_sort_tables`: duplicate-free,
within the key set, edge-respecting, and any missing key has an unprocessed
incoming edge. -/
theorem kahnResult_spec (tables : List (String × String)) (fkmap : String → List FK) :
    (kahnResult tables fkmap).Nodup ∧
      (∀ x ∈ kahnResult tables fkmap, x ∈ dedupKeys (keysOf tables)) ∧
      (∀ e ∈ buildEdges tables fkmap, e.2 ∈ kahnResult tables fkmap →
        List.Sublist [e.1, e.2] (kahnResult tables fkmap)) ∧
      (∀ k ∈ dedupKeys (keysOf tables), k ∉ kahnResult tables fkmap →
        ∃ e ∈ buildEdges tables fkmap, e.2 = k ∧ e.1 ∉ kahnResult tables fkmap) := by
  have hE : ∀ e ∈ buildEdges tables fkmap,
      e.1 ∈ dedupKeys (keysOf tables) ∧ e.2 ∈ dedupKeys (keysOf tables) := by
    intro e he
    have := buildEdges_mem_keys tables fkmap e he
    exact ⟨(mem_dedupKeys _ _).mpr this.1, (mem_dedupKeys _ _).mpr this.2⟩
  obtain ⟨a, b, c, d, _⟩ := kahnLoop_spec (buildEdges tables fkmap)
    (dedupKeys (keysOf tables)) (nodup_dedupKeys _) hE
    tables.length (inDeg (buildEdges tables fkmap))
    ((dedupKeys (keysOf tables)).filter
      (fun k => inDeg (buildEdges tables fkmap) k == 0)) []
    List.nodup_nil
    ((nodup_dedupKeys _).filter _)
    (fun x _ => List.not_mem_nil x)
    (fun x hx => absurd hx (List.not_mem_nil x))
    (fun x hx => (List.mem_filter.mp hx).1)
    (by
      have h1 := length_dedupKeys_le (keysOf tables)
      have h2 : (keysOf tables).length = tables.length := List.length_map _ _
      simp only [List.length_nil]
      omega)
    (fun x => inDeg_eq_remDeg_nil (buildEdges tables fkmap) x)
    (by
      intro k hk
      constructor
      · rintro (h0 | hf)
        · exact absurd h0 (List.not_mem_nil k)
        · exact by simpa using (List.mem_filter.mp hf).2
      · intro h0
        exact Or.inr (List.mem_filter.mpr ⟨hk, by simpa using h0⟩))
    (by
      intro e he
      constructor
      · intro hq
        have hz : inDeg (buildEdges tables fkmap) e.2 = 0 := by
          simpa using (List.mem_filter.mp hq).2
        have hpos := inDeg_pos_of_mem (buildEdges tables fkmap) e he
        omega
      · intro h0
        exact absurd h0 (List.not_mem_nil _))
  exact ⟨a, b, c, d⟩

theorem exists_cycle_of_no_source (E : List (String × String)) (M : List String)
    (hM : M ≠ []) (h : ∀ b ∈ M, ∃ a, a ∈ M ∧ (a, b) ∈ E) :
    ∃ k, Relation.TransGen (fun a b => (a, b) ∈ E) k k := by
  classical
  have hne : ∃ x, x ∈ M := List.exists_mem_of_ne_nil M hM
  let x0 : {x // x ∈ M} := ⟨hne.choose, hne.choose_spec⟩
  let F : {x // x ∈ M} → {x // x ∈ M} := fun x =>
    ⟨(h x.1 x.2).choose, (h x.1 x.2).choose_spec.1⟩
  let g : Nat → {x // x ∈ M} := fun n => F^[n] x0
  have hstep : ∀ n, ((g (n + 1)).1, (g n).1) ∈ E := by
    intro n
    have hg : g (n + 1) = F (g n) := Function.iterate_succ_apply' F n x0
    rw [hg]
    exact (h (g n).1 (g n).2).choose_spec.2
  have hchain : ∀ i d, Relation.TransGen (fun a b => (a, b) ∈ E) (g (i + d + 1)).1 (g i).1 := by
    intro i d
    induction d with
    | zero => exact Relation.TransGen.single (hstep i)
    | succ d ih =>
      have hs := hstep (i + d + 1)
      have he : i + (d + 1) + 1 = i + d + 1 + 1 := by omega
      rw [he]
      exact Relation.TransGen.head hs ih
  have hmaps : ∀ n ∈ Finset.range (M.toFinset.card + 1), (g n).1 ∈ M.toFinset :=
    fun n _ => List.mem_toFinset.mpr (g n).2
  obtain ⟨i, hi, j, hj, hij, hgij⟩ :=
    Finset.exists_ne_map_eq_of_card_lt_of_maps_to (by simp) hmaps
  rcases Nat.lt_or_ge i j with hlt | hge
  · refine ⟨(g i).1, ?_⟩
    have hc := hchain i (j - i - 1)
    rw [show i + (j - i - 1) + 1 = j from by omega] at hc
    rw [← hgij] at hc
    exact hc
  · have hlt2 : j < i := by omega
    refine ⟨(g j).1, ?_⟩
    have hc := hchain j (i - j - 1)
    rw [show j + (i - j - 1) + 1 = i from by omega] at hc
    rw [hgij] at hc
    exact hc

theorem acyclic_of_rank (E : List (String × String)) (rank : String → Nat)
    (h : ∀ e ∈ E, rank e.1 < rank e.2) : Acyclic E := by
  intro k hk
  have mono : ∀ a b, Relation.TransGen (fun a b => (a, b) ∈ E) a b → rank a < rank b := by
    intro a b hab
    induction hab with
    | single h1 => exact h _ h1
    | tail _ h1 ih => exact ih.trans (h _ h1)
  exact lt_irrefl _ (mono k k hk)

/-- In the acyclic case, every key is emitted by the Kahn loop. -/
theorem kahnResult_complete (tables : List (String × String)) (fkmap : String → List FK)
    (hacyc : Acyclic (buildEdges tables fkmap)) :
    ∀ k ∈ dedupKeys (keysOf tables), k ∈ kahnResult tables fkmap := by
  by_contra hno
  push_neg at hno
  obtain ⟨k0, hk0, hk0r⟩ := hno
  obtain ⟨_, _, _, d⟩ := kahnResult_spec tables fkmap
  set M := (dedupKeys (keysOf tables)).filter
    (fun k => decide (k ∉ kahnResult tables fkmap)) with hM
  have hMne : M ≠ [] := by
    intro hnil
    have : k0 ∈ M := List.mem_filter.mpr ⟨hk0, decide_eq_true hk0r⟩
    rw [hnil] at this
    exact List.not_mem_nil k0 this
  have hpred : ∀ b ∈ M, ∃ a, a ∈ M ∧ (a, b) ∈ buildEdges tables fkmap := by
    intro b hb
    have hbK := (List.mem_filter.mp hb).1
    have hbr : b ∉ kahnResult tables fkmap :=
      of_decide_eq_true (List.mem_filter.mp hb).2
    obtain ⟨e, he, he2, he1⟩ := d b hbK hbr
    have heK := buildEdges_mem_keys tables fkmap e he
    have heK1 : e.1 ∈ dedupKeys (keysOf tables) := (mem_dedupKeys _ _).mpr heK.1
    refine ⟨e.1, List.mem_filter.mpr ⟨heK1, decide_eq_true he1⟩, ?_⟩
    have : e = (e.1, b) := by
      rw [← he2]
    rw [← this]
    exact he
  obtain ⟨k, hk⟩ := exists_cycle_of_no_source (buildEdges tables fkmap) M hMne hpred
  exact hacyc k hk

/-- Unconditionally, the final key sequence is a permutation of the
deduplicated table keys (the liveness half of the resolver contract). -/
theorem finalKeys_perm (tables : List (String × String)) (fkmap : String → List FK) :
    List.Perm (finalKeys tables fkmap) (dedupKeys (keysOf tables)) := by
  obtain ⟨hnd, hsub, _, _⟩ := kahnResult_spec tables fkmap
  unfold finalKeys
  by_cases hlen : (kahnResult tables fkmap).length ≠ tables.length
  · rw [if_pos hlen]
    have hndf : (kahnResult tables fkmap ++
        (dedupKeys (keysOf tables)).filter
          (fun k => decide (k ∉ kahnResult tables fkmap))).Nodup := by
      refine hnd.append ((nodup_dedupKeys _).filter _) ?_
      intro a ha hb
      exact of_decide_eq_true (List.mem_filter.mp hb).2 ha
    rw [List.perm_ext_iff_of_nodup hndf (nodup_dedupKeys _)]
    intro x
    rw [List.mem_append, List.mem_filter]
    constructor
    · rintro (hx | ⟨hx, _⟩)
      · exact hsub x hx
      · exact hx
    · intro hx
      by_cases hxr : x ∈ kahnResult tables fkmap
      · exact Or.inl hxr
      · exact Or.inr ⟨hx, decide_eq_true hxr⟩
  · rw [if_neg hlen]
    push_neg at hlen
    have hsubf : (kahnResult tables fkmap).toFinset ⊆ (dedupKeys (keysOf tables)).toFinset := by
      intro a ha
      exact List.mem_toFinset.mpr (hsub a (List.mem_toFinset.mp ha))
    have hcard : (dedupKeys (keysOf tables)).toFinset.card
        ≤ (kahnResult tables fkmap).toFinset.card := by
      rw [List.toFinset_card_of_nodup hnd, List.toFinset_card_of_nodup (nodup_dedupKeys _)]
      rw [hlen]
      have h1 := length_dedupKeys_le (keysOf tables)
      have h2 : (keysOf tables).length = tables.length := List.length_map _ _
      omega
    have hfeq := Finset.eq_of_subset_of_card_le hsubf hcard
    rw [List.perm_ext_iff_of_nodup hnd (nodup_dedupKeys _)]
    intro x
    constructor
    · intro hx
      exact hsub x hx
    · intro hx
      have : x ∈ (kahnResult tables fkmap).toFinset := by
        rw [hfeq]
        exact List.mem_toFinset.mpr hx
      exact List.mem_toFinset.mp this

/-- In the acyclic case, every dependency edge is respected by the final key
sequence: the referenced key precedes the referencing key. -/
theorem finalKeys_order (tables : List (String × String)) (fkmap : String → List FK)
    (hacyc : Acyclic (buildEdges tables fkmap)) :
    ∀ e ∈ buildEdges tables fkmap, List.Sublist [e.1, e.2] (finalKeys tables fkmap) := by
  intro e he
  obtain ⟨_, _, c, _⟩ := kahnResult_spec tables fkmap
  have he2K : e.2 ∈ dedupKeys (keysOf tables) :=
    (mem_dedupKeys _ _).mpr (buildEdges_mem_keys tables fkmap e he).2
  have he2r : e.2 ∈ kahnResult tables fkmap :=
    kahnResult_complete tables fkmap hacyc e.2 he2K
  have hsub := c e he he2r
  unfold finalKeys
  by_cases hlen : (kahnResult tables fkmap).length ≠ tables.length
  · rw [if_pos hlen]
    exact hsub.trans (List.sublist_append_left _ _)
  · rw [if_neg hlen]
    exact hsub

theorem splitOnDot_no_dot (l : List Char) (h : '.' ∉ l) : splitOnDot l = [l] := by
  induction l with
  | nil => rfl
  | cons c t ih =>
    have hc : c ≠ '.' := fun hc => h (hc ▸ List.mem_cons_self c t)
    have ht : '.' ∉ t := fun hm => h (List.mem_cons_of_mem c hm)
    rw [splitOnDot, if_neg hc, ih ht]
    rfl

theorem splitOnDot_append_dot (l₁ l₂ : List Char) (h : '.' ∉ l₁) :
    splitOnDot (l₁ ++ '.' :: l₂) = l₁ :: splitOnDot l₂ := by
  induction l₁ with
  | nil =>
    show splitOnDot ('.' :: l₂) = [] :: splitOnDot l₂
    rw [splitOnDot, if_pos rfl]
  | cons c t ih =>
    have hc : c ≠ '.' := fun hc => h (hc ▸ List.mem_cons_self c t)
    have ht : '.' ∉ t := fun hm => h (List.mem_cons_of_mem c hm)
    show splitOnDot (c :: (t ++ '.' :: l₂)) = (c :: t) :: splitOnDot l₂
    rw [splitOnDot, if_neg hc, ih ht]
    rfl

/-- With dot-free schema and table names, the return statement's key split
recovers the original pair. -/
theorem keyToPair_tableKey (t : String × String)
    (h1 : '.' ∉ t.1.toList) (h2 : '.' ∉ t.2.toList) :
    keyToPair (tableKey t) = t := by
  unfold keyToPair tableKey
  have hdata : (t.1 ++ "." ++ t.2).toList = t.1.toList ++ '.' :: t.2.toList := by
    simp only [String.toList, String.data_append]
    simp
  rw [hdata, splitOnDot_append_dot _ _ h1, splitOnDot_no_dot _ h2]
  have e1 : String.mk (String.toList t.1) = t.1 := rfl
  have e2 : String.mk (String.toList t.2) = t.2 := rfl
  simp only [List.map_cons, List.map_nil, e1, e2]
  rfl

/-- Claim C8's counterexample: a single table `s.t` whose only foreign key
references itself.  The code does NOT drop the self-reference: the edge
`(s.t, s.t)` is built, and the table's in-degree is 1, not 0. -/
theorem c8_counterexample_self_reference :
    inDeg (buildEdges [("s", "t")]
        (fun k => if k = "s.t" then [FK.mk "fk_self" "c" "s" "t" "c2"] else [])) "s.t" = 1 ∧
      ("s.t", "s.t") ∈ buildEdges [("s", "t")]
        (fun k => if k = "s.t" then [FK.mk "fk_self" "c" "s" "t" "c2"] else []) ∧
      ¬ inDeg (buildEdges [("s", "t")]
        (fun k => if k = "s.t" then [FK.mk "fk_self" "c" "s" "t" "c2"] else [])) "s.t" = 0 :=
  ⟨by decide, by decide, by decide⟩

/-- Claim C8 as amended: when the dependency graph is built, a foreign key
whose referenced table is out of scope contributes no edge and no in-degree,
so a table whose foreign keys are all out-of-scope has in-degree zero; a
self-reference, however, is NOT dropped — it contributes the self-loop edge
and increments the table's own in-degree (the table is then handled by the
cycle fallback). -/
theorem c8_amended_reference_scoping (tables : List (String × String))
    (fkmap : String → List FK) :
    (∀ t ∈ tables, (∀ fk ∈ fkmap (tableKey t), refKey fk ∉ keysOf tables) →
      inDeg (buildEdges tables fkmap) (tableKey t) = 0) ∧
      ∀ t ∈ tables, ∀ fk ∈ fkmap (tableKey t), refKey fk = tableKey t →
        (tableKey t, tableKey t) ∈ buildEdges tables fkmap ∧
          1 ≤ inDeg (buildEdges tables fkmap) (tableKey t) := by
  constructor
  · intro t ht hout
    unfold inDeg
    have hnil : (buildEdges tables fkmap).filter (fun e => e.2 == tableKey t) = [] := by
      rw [List.filter_eq_nil]
      intro e he hp
      rw [beq_iff_eq] at hp
      obtain ⟨u, hu, fk, hfk, hin, rfl⟩ := (mem_buildEdges tables fkmap e).mp he
      have hkey : tableKey u = tableKey t := hp
      rw [hkey] at hfk
      exact hout fk hfk hin
    rw [hnil]
    rfl
  · intro t ht fk hfk hself
    have hkmem : tableKey t ∈ keysOf tables := List.mem_map.mpr ⟨t, ht, rfl⟩
    have hmem : (tableKey t, tableKey t) ∈ buildEdges tables fkmap := by
      rw [mem_buildEdges]
      exact ⟨t, ht, fk, hfk, by rw [hself]; exact hkmem, by rw [hself]⟩
    refine ⟨hmem, ?_⟩
    have hpos := inDeg_pos_of_mem (buildEdges tables fkmap) (tableKey t, tableKey t) hmem
    simp only at hpos
    omega

/-- Witness for the amended C8: `s.a`'s only foreign key is out of scope, so
its in-degree is 0; `s.b`'s self-reference yields the self-loop edge and an
in-degree of at least 1. -/
theorem c8_amended_reference_scoping_witness :
    inDeg (buildEdges [("s", "a"), ("s", "b")]
        (fun k => if k = "s.a" then [FK.mk "fk1" "c" "x" "y" "c2"]
          else if k = "s.b" then [FK.mk "fk2" "c" "s" "b" "c2"] else []))
        "s.a" = 0 ∧
      ("s.b", "s.b") ∈ buildEdges [("s", "a"), ("s", "b")]
        (fun k => if k = "s.a" then [FK.mk "fk1" "c" "x" "y" "c2"]
          else if k = "s.b" then [FK.mk "fk2" "c" "s" "b" "c2"] else []) ∧
      1 ≤ inDeg (buildEdges [("s", "a"), ("s", "b")]
        (fun k => if k = "s.a" then [FK.mk "fk1" "c" "x" "y" "c2"]
          else if k = "s.b" then [FK.mk "fk2" "c" "s" "b" "c2"] else []))
        "s.b" := by
  have h := c8_amended_reference_scoping [("s", "a"), ("s", "b")]
    (fun k => if k = "s.a" then [FK.mk "fk1" "c" "x" "y" "c2"]
      else if k = "s.b" then [FK.mk "fk2" "c" "s" "b" "c2"] else [])
  have h2 := h.2 ("s", "b") (by decide) (FK.mk "fk2" "c" "s" "b" "c2") (by decide) (by decide)
  exact ⟨h.1 ("s", "a") (by decide) (by decide), h2.1, h2.2⟩

theorem dedupKeys_eq_self (l : List String) (h : l.Nodup) : dedupKeys l = l := by
  induction l with
  | nil => rfl
  | cons k ks ih =>
    obtain ⟨hk, hks⟩ := List.nodup_cons.mp h
    rw [dedupKeys, ih hks, List.filter_eq_self.mpr]
    intro a ha
    exact decide_eq_true (fun he => hk (he ▸ ha))

theorem perm_count_pair {l1 l2 : List (String × String)} (h : List.Perm l1 l2)
    (t : String × String) : l1.count t = l2.count t := by
  induction h with
  | nil => rfl
  | cons x _ ih => rw [List.count_cons, List.count_cons, ih]
  | swap x y l =>
    rw [List.count_cons, List.count_cons, List.count_cons, List.count_cons]
    omega
  | trans _ _ ih1 ih2 => exact ih1.trans ih2

theorem count_eq_one_pair {l : List (String × String)} (hn : l.Nodup)
    {t : String × String} (ht : t ∈ l) : l.count t = 1 := by
  induction l with
  | nil => cases ht
  | cons a as ih =>
    obtain ⟨ha, has⟩ := List.nodup_cons.mp hn
    rw [List.count_cons]
    rcases List.mem_cons.mp ht with rfl | hts
    · rw [List.count_eq_zero.mpr ha]
      simp
    · rw [ih has hts, if_neg]
      simp only [beq_iff_eq]
      rintro rfl
      exact ha hts

theorem tableKey_inj (tables : List (String × String))
    (hdot : ∀ t ∈ tables, '.' ∉ t.1.toList ∧ '.' ∉ t.2.toList) :
    ∀ t ∈ tables, ∀ u ∈ tables, tableKey t = tableKey u → t = u := by
  intro t ht u hu he
  have h1 := keyToPair_tableKey t (hdot t ht).1 (hdot t ht).2
  have h2 := keyToPair_tableKey u (hdot u hu).1 (hdot u hu).2
  rw [← h1, ← h2, he]

/-- Claim C2: for inputs whose schema/table names are `'.'`-free (claim C10
records that this is required for key round-tripping), `topological_sort_tables`
returns every input table exactly once — also when the reference graph has a
cycle — and, when the in-scope reference graph is acyclic, every referenced
table precedes each table referencing it. -/
theorem c2_dependency_resolver (tables : List (String × String)) (fkmap : String → List FK)
    (hdot : ∀ t ∈ tables, '.' ∉ t.1.toList ∧ '.' ∉ t.2.toList) :
    (∀ t ∈ tables, (topological_sort_tables tables fkmap).count t = 1) ∧
      (Acyclic (buildEdges tables fkmap) →
        ∀ t ∈ tables, ∀ fk ∈ fkmap (tableKey t), refKey fk ∈ keysOf tables →
          ∀ tA ∈ tables, tableKey tA = refKey fk →
            List.Sublist [tA, t] (topological_sort_tables tables fkmap)) := by
  constructor
  · intro t ht
    have hperm : List.Perm (topological_sort_tables tables fkmap)
        ((dedupKeys (keysOf tables)).map keyToPair) :=
      (finalKeys_perm tables fkmap).map keyToPair
    refine (perm_count_pair hperm t).trans ?_
    have hrep : ∀ k ∈ dedupKeys (keysOf tables), ∃ u ∈ tables, tableKey u = k := by
      intro k hk
      exact List.mem_map.mp ((mem_dedupKeys _ _).mp hk)
    have hinj : ∀ k1 ∈ dedupKeys (keysOf tables), ∀ k2 ∈ dedupKeys (keysOf tables),
        keyToPair k1 = keyToPair k2 → k1 = k2 := by
      intro k1 hk1 k2 hk2 he
      obtain ⟨u1, hu1, rfl⟩ := hrep k1 hk1
      obtain ⟨u2, hu2, rfl⟩ := hrep k2 hk2
      rw [keyToPair_tableKey u1 (hdot u1 hu1).1 (hdot u1 hu1).2,
        keyToPair_tableKey u2 (hdot u2 hu2).1 (hdot u2 hu2).2] at he
      rw [he]
    have hmapnd : ((dedupKeys (keysOf tables)).map keyToPair).Nodup :=
      (nodup_dedupKeys _).map_on hinj
    have hmem : t ∈ (dedupKeys (keysOf tables)).map keyToPair := by
      rw [List.mem_map]
      exact ⟨tableKey t, (mem_dedupKeys _ _).mpr (List.mem_map.mpr ⟨t, ht, rfl⟩),
        keyToPair_tableKey t (hdot t ht).1 (hdot t ht).2⟩
    exact count_eq_one_pair hmapnd hmem
  · intro hacyc t ht fk hfk hin tA htA hkey
    have he : (refKey fk, tableKey t) ∈ buildEdges tables fkmap :=
      (mem_buildEdges tables fkmap _).mpr ⟨t, ht, fk, hfk, hin, rfl⟩
    have hsub := (finalKeys_order tables fkmap hacyc _ he).map keyToPair
    have e1 : keyToPair (refKey fk) = tA := by
      rw [← hkey]
      exact keyToPair_tableKey tA (hdot tA htA).1 (hdot tA htA).2
    have e2 : keyToPair (tableKey t) = t :=
      keyToPair_tableKey t (hdot t ht).1 (hdot t ht).2
    simpa [topological_sort_tables, e1, e2] using hsub

/-- Witness for C2 on the spec's end-to-end scenario: `app.orders` references
`app.customers`; each table appears exactly once and `app.customers`
precedes `app.orders`. -/
theorem c2_dependency_resolver_witness :
    (topological_sort_tables [("app", "customers"), ("app", "orders")]
        (fun k => if k = "app.orders" then [FK.mk "fk" "cid" "app" "customers" "id"]
          else [])).count ("app", "customers") = 1 ∧
      (topological_sort_tables [("app", "customers"), ("app", "orders")]
        (fun k => if k = "app.orders" then [FK.mk "fk" "cid" "app" "customers" "id"]
          else [])).count ("app", "orders") = 1 ∧
      List.Sublist [("app", "customers"), ("app", "orders")]
        (topological_sort_tables [("app", "customers"), ("app", "orders")]
          (fun k => if k = "app.orders" then [FK.mk "fk" "cid" "app" "customers" "id"]
            else [])) := by
  have h := c2_dependency_resolver [("app", "customers"), ("app", "orders")]
    (fun k => if k = "app.orders" then [FK.mk "fk" "cid" "app" "customers" "id"] else [])
    (by decide)
  have hacyc : Acyclic (buildEdges [("app", "customers"), ("app", "orders")]
      (fun k => if k = "app.orders" then [FK.mk "fk" "cid" "app" "customers" "id"]
        else [])) :=
    acyclic_of_rank _ (fun k => if k = "app.customers" then 0 else 1) (by decide)
  exact ⟨h.1 ("app", "customers") (by decide), h.1 ("app", "orders") (by decide),
    h.2 hacyc ("app", "orders") (by decide) (FK.mk "fk" "cid" "app" "customers" "id")
      (by decide) (by decide) ("app", "customers") (by decide) (by decide)⟩

/-- Counterexample to claim C10 as stated: a duplicate-free-ness condition is
also needed.  For the dot-free input list containing `("a", "b")` twice, the
`in_degree` dict collapses the two occurrences, so the output contains the
pair only once and the multisets differ. -/
theorem c10_counterexample_duplicate_tables :
    topological_sort_tables [("a", "b"), ("a", "b")] (fun _ => []) = [("a", "b")] ∧
      ¬ List.Perm (topological_sort_tables [("a", "b"), ("a", "b")] (fun _ => []))
        [("a", "b"), ("a", "b")] :=
  ⟨by decide, by decide⟩

/-- Claim C10 as amended: for every duplicate-free input table list in which
no schema or table name contains `'.'`, the output pairs are a permutation
of (multiset-equal to) the input pairs; the dot-free precondition is
necessary because keys are formed with `'.'` and split back on `'.'`, so a
name containing a dot is truncated: `("a.b", "c")` comes back as
`("a", "b")`. -/
theorem c10_pair_recovery :
    (∀ (tables : List (String × String)) (fkmap : String → List FK),
      (∀ t ∈ tables, '.' ∉ t.1.toList ∧ '.' ∉ t.2.toList) → tables.Nodup →
        List.Perm (topological_sort_tables tables fkmap) tables) ∧
      topological_sort_tables [("a.b", "c")] (fun _ => []) = [("a", "b")] := by
  constructor
  · intro tables fkmap hdot hnd
    have hknd : (keysOf tables).Nodup := hnd.map_on (tableKey_inj tables hdot)
    have hded : dedupKeys (keysOf tables) = keysOf tables := dedupKeys_eq_self _ hknd
    have hperm : List.Perm (topological_sort_tables tables fkmap)
        ((dedupKeys (keysOf tables)).map keyToPair) :=
      (finalKeys_perm tables fkmap).map keyToPair
    rw [hded] at hperm
    have hmm : (keysOf tables).map keyToPair = tables := by
      unfold keysOf
      rw [List.map_map]
      have hcg : ∀ t ∈ tables, (keyToPair ∘ tableKey) t = id t := fun t ht =>
        keyToPair_tableKey t (hdot t ht).1 (hdot t ht).2
      rw [List.map_congr_left hcg, List.map_id]
    rw [hmm] at hperm
    exact hperm
  · decide

/-- Witness for the amended C10 at a concrete input: two dot-free tables
come back as a permutation of themselves. -/
theorem c10_pair_recovery_witness :
    List.Perm (topological_sort_tables [("s", "a"), ("s", "b")] (fun _ => []))
      [("s", "a"), ("s", "b")] :=
  c10_pair_recovery.1 [("s", "a"), ("s", "b")] (fun _ => []) (by decide) (by decide)

end DataMigration
